import Mathlib

/-!
Shallow embedding of the ICBHI_client repository's core pipeline
(`src/utils/tools.py`): the spectrogram renderer, the ICBHI metric
evaluators, the label balancer (`two_permutation_data`) and the mixup
augmenter (`mix_up`).

Numbers are embedded as `ℚ` (the Python code works with float64 arrays;
no claim here depends on rounding).  A float value that is not finite
(the `NaN` produced by `0.0/0.0` in the renderer, or by `0./0.` in the
metrics, and upward-propagated exceptions such as `ValueError`,
`KeyError`, `IndexError`) is modelled by `Option`: `none` is "no defined
rational result".

External library calls are modelled at their documented boundary:
* `np.random` / `tf.random` are a process-wide seeded stream; the exact
  pseudo-random stream is irrelevant to every claim, so the stream is
  modelled by a small LCG.  `np.random.permutation` is modelled by a
  draw-and-remove shuffle, which is provably a permutation of its input,
  matching numpy's contract.
* `librosa.feature.melspectrogram(y, ..., n_mels, hop_length=hop)` with
  the source's `n_fft = 2048` (even) and `center=True` returns a matrix
  of shape `(n_mels, 1 + len(y) / hop)`; the frame-count formula is all
  the hop-search loop depends on, and the value pipeline after it is
  embedded as a function of the returned matrix.
* `librosa.power_to_db` applies `10*log10(max(amin, x)) -
  10*log10(max(amin, ref))` entrywise with `ref = S.max()`,
  `amin = 1e-10`, then clamps below at `max - top_db` with
  `top_db = 80`.  `log10` is irrational-valued, so the embedding is
  parameterised by the map `lg : ℚ → ℚ`; no claim depends on the values
  of `lg` beyond it being a function.
-/

namespace ICBHI

/-- One label vector (a row of the one-hot / soft label array), or one
flattened data sample. -/
abbrev Vec := List ℚ

/-- The `(data_1, data_2, label)` triple that `two_permutation_data` and
`mix_up` call `ds`: three parallel sample arrays. -/
structure DS where
  d1 : List Vec
  d2 : List Vec
  lab : List Vec
deriving Repr, DecidableEq

/-! ### Model of the seeded global random stream -/

/-- Model of the process-wide random generator state: one 32-bit word
advanced by a linear congruential step.  The exact stream of numpy's
MT19937 is irrelevant to every claim (only determinism, positivity and
the permutation property are used), so a small LCG stands in for it. -/
def rngNext (s : Nat) : Nat × Nat :=
  let s2 := (s * 1103515245 + 12345) % 4294967296
  (s2, s2)

/-- Model of `np.random.seed(n)`: the state is reset to a function of
`n` alone. -/
def npSeed (n : Nat) : Nat := n % 4294967296

/-- Model of `np.random.permutation` on a list of indices: repeatedly
draw a position from the stream and remove the drawn element.  The
result is a permutation of the input (proved below), which is numpy's
contract; the particular order is model-specific. -/
def shuffle (l : List Nat) (g : Nat) : List Nat × Nat :=
  if h : l = [] then ([], g)
  else
    let p := rngNext g
    let x := l.get ⟨p.1 % l.length, Nat.mod_lt _ (List.length_pos.mpr h)⟩
    let q := shuffle (l.erase x) p.2
    (x :: q.1, q.2)
termination_by l.length
decreasing_by
  simp only [List.length_erase_of_mem (List.get_mem l _ _)]
  exact Nat.sub_lt (List.length_pos.mpr h) Nat.one_pos

/-! ### Metric evaluators (`sensitivity`, `specificity`, `harmonic_mean`)

`tools.py` lines 174-228.  Both `sensitivity` and `specificity` first
reduce each label row to its argmax.  Eagerly, for a 1-D boolean mask
`tf.where(mask)` has static shape `(k, 1)` where `k` is the number of
`True` entries, so:
* `tf.where(...).shape[1] == None` is never true (the dead guard in the
  source is dropped here);
* in the `test=False` branch, `tf.where(...).shape[1]` is the constant
  `1`, so the denominator is always `1.0`;
* in the `test=True` branch, `tf.squeeze` of a `(k, 1)` tensor has shape
  `(k,)` for `k ≠ 1` but shape `()` for `k = 1`, in which case
  `.shape[0]` raises an `IndexError` (modelled `none`); for `k = 0` the
  division is `0.0/0.0 = NaN` (also modelled `none`).

The source indexes `y_pred[idx]` for each position of `y_true`; the
embedding zips the two argmax lists, which agrees whenever the two
inputs have equal length (as in every claim). -/

/-- Maximum entry of a vector (`np.max` / reduction used by argmax);
`0` for the empty vector, which the source never queries. -/
def vecMax (v : Vec) : ℚ := v.foldl max (v.headD 0)

/-- Model of `tf.math.argmax` on one row: index of the first maximal
entry. -/
def tfArgmax (v : Vec) : Nat := (v.findIdx? (fun x => x == vecMax v)).getD 0

/-- Embedding of `sensitivity(y_true, y_pred, test)` (`tools.py` 174-194). -/
def sensitivity (y_true y_pred : List Vec) (test : Bool) : Option ℚ :=
  let t := y_true.map tfArgmax
  let p := y_pred.map tfArgmax
  let numerator : Nat := (t.zip p).countP (fun q => decide (q.1 ≠ 0) && decide (q.1 = q.2))
  let k : Nat := t.countP (fun c => decide (c ≠ 0))
  if test then
    if k = 1 then none
    else if k = 0 then none
    else some ((numerator : ℚ) / (k : ℚ))
  else
    some (numerator : ℚ)

/-- Embedding of `specificity(y_true, y_pred, test)` (`tools.py` 196-216):
the same computation restricted to samples whose true argmax is `0`. -/
def specificity (y_true y_pred : List Vec) (test : Bool) : Option ℚ :=
  let t := y_true.map tfArgmax
  let p := y_pred.map tfArgmax
  let numerator : Nat := (t.zip p).countP (fun q => decide (q.1 = 0) && decide (q.1 = q.2))
  let k : Nat := t.countP (fun c => decide (c = 0))
  if test then
    if k = 1 then none
    else if k = 0 then none
    else some ((numerator : ℚ) / (k : ℚ))
  else
    some (numerator : ℚ)

/-- Embedding of `harmonic_mean(y_true, y_pred, test)` (`tools.py`
223-228).  A non-finite `se` or `sp` (modelled `none`) propagates: the
`se + sp == 0.` comparison is false for `NaN`, and the final division
then yields `NaN` again. -/
def harmonic_mean (y_true y_pred : List Vec) (test : Bool) : Option ℚ :=
  match sensitivity y_true y_pred test, specificity y_true y_pred test with
  | some se, some sp => if se + sp = 0 then some 0 else some ((2 * se * sp) / (se + sp))
  | _, _ => none

/-- Number of samples whose true class (argmax of the true row) is
non-zero: the denominator the spec ascribes to `sensitivity`. -/
def countAbnormal (y_true : List Vec) : Nat :=
  (y_true.map tfArgmax).countP (fun c => decide (c ≠ 0))

/-- Number of samples whose true class is non-zero and whose predicted
argmax matches: the numerator the spec ascribes to `sensitivity`. -/
def countAbnormalCorrect (y_true y_pred : List Vec) : Nat :=
  ((y_true.map tfArgmax).zip (y_pred.map tfArgmax)).countP
    (fun q => decide (q.1 ≠ 0) && decide (q.1 = q.2))

/-- Number of samples whose true class is zero and whose predicted
argmax matches: the numerator of `specificity`. -/
def countNormalCorrect (y_true y_pred : List Vec) : Nat :=
  ((y_true.map tfArgmax).zip (y_pred.map tfArgmax)).countP
    (fun q => decide (q.1 = 0) && decide (q.1 = q.2))

/-- True classes `[0,1,2,0]` of the spec's example scenario, as one-hot
rows. -/
def yTrueEx : List Vec := [[1, 0, 0, 0], [0, 1, 0, 0], [0, 0, 1, 0], [1, 0, 0, 0]]

/-- Predicted classes `[0,1,0,0]` of the spec's example scenario, as
one-hot rows. -/
def yPredEx : List Vec := [[1, 0, 0, 0], [0, 1, 0, 0], [1, 0, 0, 0], [1, 0, 0, 0]]

/-- Number of samples whose true class is zero ("normal"). -/
def countNormal (y_true : List Vec) : Nat :=
  (y_true.map tfArgmax).countP (fun c => decide (c = 0))

/-! ### Spectrogram renderer (`create_spectrograms_raw`, `tools.py` 120-141)

The mel power spectrogram returned by `librosa.feature.melspectrogram`
for a signal of length `len` and hop length `hop` (with the source's
even `n_fft` and the default `center=True`) has shape
`(n_mels, 1 + len / hop)`.  The adaptive hop search only depends on
that frame count; the value pipeline (lines 128-141) is embedded as a
function of the returned matrix. -/

/-- Number of frames of the mel spectrogram: `1 + len / hop`
(`librosa` pads by `n_fft / 2` on both sides for `center=True`). -/
def numFrames (len hop : Nat) : Nat := 1 + len / hop

/-- One fuel-bounded unfolding of the `while h > w: hop += 2` loop of
`create_spectrograms_raw` (lines 124-127). -/
def hopLoop : Nat → Nat → Nat → Nat → Nat
  | 0, _, _, hop => hop
  | fuel + 1, len, w, hop =>
    if w < numFrames len hop then hopLoop fuel len w (hop + 2) else hop

/-- The hop length at which the loop exits; `len + 1` rounds of fuel
are enough (proved in `C8_hop_search_terminates`). -/
def hopSearch (len w hop : Nat) : Nat := hopLoop (len + 1) len w hop

/-- A 2-D float array (the mel power spectrogram handed back by
`librosa`, and its decibel rescaling). -/
abbrev Mat := List (List ℚ)

/-- One pixel of the rendered image: `none` models a non-finite float
(the `NaN` produced by `0.0/0.0`). -/
abbrev Pix := Option ℚ

/-- The final 4-D array: batch axis, rows, columns, channel axis. -/
abbrev Img := List (List (List (List Pix)))

/-- Maximum entry of a matrix (`S.max()`); `0` for an empty matrix,
which numpy would reject and the renderer never produces. -/
def matMax (S : Mat) : ℚ := S.flatten.foldl max (S.flatten.headD 0)

/-- Minimum entry of a matrix (`S.min()`). -/
def matMin (S : Mat) : ℚ := S.flatten.foldl min (S.flatten.headD 0)

/-- The `amin` floor of `librosa.power_to_db`, `1e-10`. -/
def np_amin : ℚ := 1 / 10 ^ 10

/-- Embedding of `librosa.power_to_db(S, ref=np.max)`: entrywise
`10*log10(max(amin, x)) - 10*log10(max(amin, S.max()))`, then clamped
below at `(result max) - top_db` with the default `top_db = 80`.  The
irrational `log10` is a parameter `lg`; no claim depends on its
values. -/
def power_to_db (lg : ℚ → ℚ) (S : Mat) : Mat :=
  let ref := matMax S
  let D := S.map (fun row => row.map (fun x => 10 * lg (max np_amin x) - 10 * lg (max np_amin ref)))
  let top := matMax D - 80
  D.map (fun row => row.map (fun x => max x top))

/-- Embedding of `img = (S - S.min()) / (S.max() - S.min())` (line
130).  When `S.max() == S.min()` every numerator is also `0`, so every
entry is `0.0/0.0 = NaN`, modelled `none`. -/
def scale01 (S : Mat) : List (List Pix) :=
  let mn := matMin S
  let mx := matMax S
  S.map (fun row => row.map (fun x =>
    if mx - mn = 0 then none else some ((x - mn) / (mx - mn))))

/-- Embedding of the zero-padding branch (lines 132-137): when
`h < w`, each row of the `w × h` image is placed into columns
`l .. l+h` of a `w × w` zero matrix, `l = (w-h) / 2`. -/
def padSquare (w h : Nat) (img : List (List Pix)) : List (List Pix) :=
  if h < w then
    img.map (fun row =>
      List.replicate ((w - h) / 2) (some 0) ++ row ++
        List.replicate ((w - h) - (w - h) / 2) (some 0))
  else img

/-- Embedding of `create_spectrograms_raw` from the mel power matrix
`S` on (lines 128-141): decibel rescale, min-max normalise, pad to a
square, and add the trailing channel and leading batch axes. -/
def create_spectrograms_raw (lg : ℚ → ℚ) (S : Mat) : Img :=
  let D := power_to_db lg S
  let w := D.length
  let h := (D.headD []).length
  let img := scale01 D
  let img2 := padSquare w h img
  [img2.map (fun row => row.map (fun x => [x]))]

/-- `S` is a well-formed `w × h` matrix. -/
def isMat (S : Mat) (w h : Nat) : Prop :=
  S.length = w ∧ ∀ row ∈ S, row.length = h

/-- The 4-D array has shape `(a, w, h, c)`. -/
def imgShape (im : Img) (a w h c : Nat) : Prop :=
  im.length = a ∧ ∀ plane ∈ im, plane.length = w ∧
    ∀ row ∈ plane, row.length = h ∧ ∀ pix ∈ row, pix.length = c

/-- The pixel is a finite value in `[0, 1]`. -/
def pix01 (v : Pix) : Prop :=
  match v with
  | none => False
  | some q => 0 ≤ q ∧ q ≤ 1

/-- Every pixel of the image is a finite value in `[0, 1]`. -/
def imgVals01 (im : Img) : Prop :=
  ∀ plane ∈ im, ∀ row ∈ plane, ∀ pix ∈ row, ∀ v ∈ pix, pix01 v

/-- Every pixel of the image is non-finite (`NaN`). -/
def imgAllNaN (im : Img) : Prop :=
  ∀ plane ∈ im, ∀ row ∈ plane, ∀ pix ∈ row, ∀ v ∈ pix, v = none

instance decPix01 : DecidablePred pix01 := fun v =>
  match v with
  | none => isFalse (fun h => h)
  | some q => inferInstanceAs (Decidable (0 ≤ q ∧ q ≤ 1))

instance decImgVals01 (im : Img) : Decidable (imgVals01 im) := by
  unfold imgVals01
  infer_instance

instance decImgAllNaN (im : Img) : Decidable (imgAllNaN im) := by
  unfold imgAllNaN
  infer_instance

/-- The image grid produced by `scale01` before padding. -/
def isGrid (G : List (List Pix)) (w h : Nat) : Prop :=
  G.length = w ∧ ∀ row ∈ G, row.length = h

/-! ### Label balancer (`onehot_to`, `two_permutation_data`, `tools.py`
246-325)

Python dicts with the fixed key sets `{0,1,2,3}` / `{1,2,3}` are
modelled as association lists in insertion order; appending to a
missing key is a `KeyError`, modelled `none`.  `np.random.seed(0)` at
the top of `two_permutation_data` resets the modelled global stream,
discarding the incoming state. -/

/-- Model of `i.tolist().index(1)` for one label row: the first index
whose entry equals `1` exactly, `none` for the `ValueError` raised when
no entry equals `1`. -/
def labelClass : Vec → Option Nat
  | [] => none
  | x :: xs => if x == 1 then some 0 else (labelClass xs).map (fun i => i + 1)

/-- Embedding of `onehot_to(labels)` (`tools.py` 246-251): the integer
class of every row; `none` when any row raises `ValueError`. -/
def onehot_to : List Vec → Option (List Nat)
  | [] => some []
  | v :: vs =>
    match labelClass v, onehot_to vs with
    | some c, some r => some (c :: r)
    | _, _ => none

/-- The initial `label_idx_1` dict (line 256-259): keys in insertion
order, each with an empty index list. -/
def emptyBuckets (have_normal : Bool) : List (Nat × List Nat) :=
  if have_normal then [(0, []), (1, []), (2, []), (3, [])] else [(1, []), (2, []), (3, [])]

/-- `d[k].append(v)` on the modelled dict: `none` is the `KeyError`
raised when `k` is not a key. -/
def dictAppend (d : List (Nat × List Nat)) (k v : Nat) : Option (List (Nat × List Nat)) :=
  if k ∈ d.map (fun p => p.1) then
    some (d.map (fun p => if p.1 = k then (p.1, p.2 ++ [v]) else p))
  else none

/-- The partition loop (lines 269-274): visit `number_label` in order
with its position, appending each position to its class's bucket
(classes `!= 0` only when `have_normal` is false). -/
def bucketsGo (hn : Bool) : List Nat → Nat → List (Nat × List Nat) → Option (List (Nat × List Nat))
  | [], _, d => some d
  | c :: cs, idx, d =>
    if hn then (dictAppend d c idx).bind (fun e => bucketsGo hn cs (idx + 1) e)
    else if c ≠ 0 then (dictAppend d c idx).bind (fun e => bucketsGo hn cs (idx + 1) e)
    else bucketsGo hn cs (idx + 1) d

/-- The finished `label_idx_1` for a class list `nl`. -/
def buildBuckets (nl : List Nat) (hn : Bool) : Option (List (Nat × List Nat)) :=
  bucketsGo hn nl 0 (emptyBuckets hn)

/-- Model of `np.min` on a list of lengths (line 280); numpy rejects
an empty list, which cannot occur here (the key set is never empty). -/
def npMin : List Nat → Nat
  | [] => 0
  | [x] => x
  | x :: y :: xs => min x (npMin (y :: xs))

/-- Numpy fancy row indexing `xs[idxs]`; all indices produced by the
balancer are in range (they are positions of `number_label`), so the
out-of-range `IndexError` is unreachable and `getD` is safe. -/
def gatherRows (xs : List Vec) (idxs : List Nat) : List Vec :=
  idxs.map (fun j => xs.getD j [])

/-- The three output arrays of one balanced view, plus the advanced
random state. -/
structure Sel where
  d1 : List Vec
  d2 : List Vec
  lab : List Vec
  g : Nat

/-- One view-building loop of `two_permutation_data` (lines 283-298 and
306-321, which are textually identical up to the class order): for each
class bucket in order, permute its indices, take the first `min_`, and
concatenate the gathered rows of the three arrays. -/
def selectClasses (xs ys labs : List Vec) (m : Nat) :
    List (Nat × List Nat) → Nat → Sel
  | [], g => ⟨[], [], [], g⟩
  | (_, b) :: rest, g =>
    let s := shuffle b g
    let sel := s.1.take m
    let r := selectClasses xs ys labs m rest s.2
    ⟨gatherRows xs sel ++ r.d1, gatherRows ys sel ++ r.d2, gatherRows labs sel ++ r.lab, r.g⟩

/-- Dict lookup with the dict's stored bucket (`label_idx_1[i]`); the
balancer only looks up present keys. -/
def dictGet (d : List (Nat × List Nat)) (k : Nat) : List Nat :=
  match d with
  | [] => []
  | p :: rest => if p.1 = k then p.2 else dictGet rest k

/-- The body of `two_permutation_data` after the label partition
succeeded (lines 267-325): seed the generator with `0`, compute
`min_`, build view one over the buckets in insertion order, permute
the class keys, and build view two over the buckets in the permuted
key order. -/
def balanceCore (ds : DS) (d : List (Nat × List Nat)) : DS × DS × Nat :=
  let g := npSeed 0
  let m := npMin (d.map (fun p => p.2.length))
  let one := selectClasses ds.d1 ds.d2 ds.lab m d g
  let ks := shuffle (d.map (fun p => p.1)) one.g
  let order2 := ks.1.map (fun k => (k, dictGet d k))
  let two := selectClasses ds.d1 ds.d2 ds.lab m order2 ks.2
  (⟨one.d1, one.d2, one.lab⟩, ⟨two.d1, two.d2, two.lab⟩, two.g)

/-- Embedding of `two_permutation_data(ds, have_normal)` (`tools.py`
253-325).  `g0` is the state of the process-wide numpy generator at
call time; `np.random.seed(0)` (line 267) discards it.  Returns the two
balanced views and the final generator state, or `none` when
`onehot_to` raises `ValueError` (or a class outside the key set raises
`KeyError`). -/
def two_permutation_data (g0 : Nat) (ds : DS) (have_normal : Bool) :
    Option (DS × DS × Nat) :=
  (onehot_to ds.lab).bind (fun nl =>
    (buildBuckets nl have_normal).bind (fun d => some (balanceCore ds d)))

/-- Number of participating classes: `4` with the normal class, else
`3`. -/
def numClasses (hn : Bool) : Nat := if hn then 4 else 3

/-- A concrete four-sample pool with one-hot classes `[1, 2, 3, 1]`,
used to witness the balancer claims. -/
def dsEx : DS :=
  ⟨[[10], [20], [30], [40]], [[5], [6], [7], [8]],
    [[0, 1, 0, 0], [0, 0, 1, 0], [0, 0, 0, 1], [0, 1, 0, 0]]⟩

/-- The smallest participating class size `min_` (line 280). -/
def minCount (ds : DS) (hn : Bool) : Nat :=
  match (onehot_to ds.lab).bind (fun nl => buildBuckets nl hn) with
  | some d => npMin (d.map (fun p => p.2.length))
  | none => 0

/-- The row is a one-hot vector: exactly one entry equals `1` and all
others are `0`. -/
def isOneHot (v : Vec) : Bool :=
  v.count 1 == 1 && v.all (fun x => x == 0 || x == 1)

/-! ### Mixup augmenter (`sample_beta_distribution`, `mix_up`,
`tools.py` 241-244 and 327-364)

`tf.random.gamma` draws positive reals from the process-wide
tensorflow stream (separate from numpy's); the model draws a positive
rational from the seeded stream — the distribution itself is irrelevant
to every claim, only positivity and the threaded state are used.  The
per-sample data tensors are modelled as flat vectors: the
`based_image` branch (lines 340-343) only selects the broadcast rank of
the same per-sample scalar `λ`, which changes no value in the
elementwise combination, so both branches coincide in the embedding. -/

/-- One modelled `tf.random.gamma` draw: a rational in `(0, 1]`. -/
def gammaDraw (g : Nat) : ℚ × Nat :=
  let p := rngNext g
  (((p.1 % 1000 + 1 : Nat) : ℚ) / 1001, p.2)

/-- Model of `tf.random.gamma(shape=[size], alpha)`: `size` positive
draws from the threaded stream. -/
def gammaSample : Nat → ℚ → Nat → List ℚ × Nat
  | 0, _, g => ([], g)
  | n + 1, a, g =>
    let x := gammaDraw g
    let r := gammaSample n a x.2
    (x.1 :: r.1, r.2)

/-- Embedding of `sample_beta_distribution` (`tools.py` 241-244):
`g1 / (g1 + g2)` over two gamma draws. -/
def sample_beta_distribution (size : Nat) (c0 c1 : ℚ) (g : Nat) : List ℚ × Nat :=
  let g1 := gammaSample size c1 g
  let g2 := gammaSample size c0 g1.2
  (List.zipWith (fun a b => a / (a + b)) g1.1 g2.1, g2.2)

/-- The slice `xs[i*bs : (i+1)*bs]`. -/
def sliceB (xs : List Vec) (i bs : Nat) : List Vec := (xs.drop (i * bs)).take bs

/-- One mixed sample: `v * λ + w * (1 - λ)` elementwise with the
per-sample scalar `λ`. -/
def mixVec (lam : ℚ) (v w : Vec) : Vec :=
  List.zipWith (fun a b => lam * a + (1 - lam) * b) v w

/-- One mixed batch: sample `j` of the batch uses `λ_j`. -/
def mixRows : List ℚ → List Vec → List Vec → List Vec
  | lam :: ls, v :: vs, w :: ws => mixVec lam v w :: mixRows ls vs ws
  | _, _, _ => []

/-- The inner batch loop of `mix_up` (lines 336-363): for each of the
remaining `k` batches starting at batch index `i`, draw `λ`, mix the
three slices, and append them to the accumulated pool. -/
def mixLoop (i1 f1 l1 i2 f2 l2 : List Vec) (c : ℚ) (bs : Nat) :
    Nat → Nat → (List Vec × List Vec × List Vec) → Nat →
      (List Vec × List Vec × List Vec) × Nat
  | _, 0, acc, g => (acc, g)
  | i, k + 1, acc, g =>
    let lam := sample_beta_distribution bs c c g
    let images := mixRows lam.1 (sliceB i1 i bs) (sliceB i2 i bs)
    let ffts := mixRows lam.1 (sliceB f1 i bs) (sliceB f2 i bs)
    let labs := mixRows lam.1 (sliceB l1 i bs) (sliceB l2 i bs)
    mixLoop i1 f1 l1 i2 f2 l2 c bs (i + 1) k
      (acc.1 ++ images, acc.2.1 ++ ffts, acc.2.2 ++ labs) lam.2

/-- The outer round loop of `mix_up` (line 334): round `idx` uses
`alpha[idx]` (an `IndexError`, modelled `none`, when the batch-size
list is longer than `alpha`) and `num = int(len(labels_one) /
batch_size)` batches (a `ZeroDivisionError`, modelled `none`, for a
zero batch size). -/
def mixRounds (i1 f1 l1 i2 f2 l2 : List Vec) (alpha : List ℚ) :
    List Nat → Nat → (List Vec × List Vec × List Vec) → Nat →
      Option ((List Vec × List Vec × List Vec) × Nat)
  | [], _, acc, g => some (acc, g)
  | bs :: rest, idx, acc, g =>
    (alpha[idx]?).bind (fun c =>
      if bs = 0 then none
      else
        let r := mixLoop i1 f1 l1 i2 f2 l2 c bs 0 (l1.length / bs) acc g
        mixRounds i1 f1 l1 i2 f2 l2 alpha rest (idx + 1) r.1 r.2)

/-- Embedding of `mix_up(ds, args, alpha, batch_size_range,
have_normal)` (`tools.py` 327-364).  `gnp` and `gtf` are the numpy and
tensorflow global generator states.  Returns the augmented
`(images, ffts, labels)` pool and the final tensorflow state. -/
def mix_up (gnp gtf : Nat) (ds : DS) (based_image : String) (alpha : List ℚ)
    (batch_size_range : List Nat) (have_normal : Bool) :
    Option ((List Vec × List Vec × List Vec) × Nat) :=
  (two_permutation_data gnp ds have_normal).bind (fun r =>
    mixRounds r.1.d1 r.1.d2 r.1.lab r.2.1.d1 r.2.1.d2 r.2.1.lab alpha
      batch_size_range 0 (ds.d1, ds.d2, ds.lab) gtf)

/-- The balanced pool size `len(labels_one)` the round loop divides by. -/
def balancedSize (ds : DS) (hn : Bool) : Nat :=
  match two_permutation_data 0 ds hn with
  | some r => r.1.lab.length
  | none => 0

theorem shuffle_perm (l : List Nat) (g : Nat) : (shuffle l g).1.Perm l := by
  induction l, g using shuffle.induct with
  | case1 g => simp [shuffle]
  | case2 l g h p x ih =>
    rw [shuffle]
    simp only [dif_neg h]
    exact (((shuffle _ _).1.perm_cons _).mpr ih).trans
      (List.perm_cons_erase (List.get_mem l _ _)).symm

theorem shuffle_length (l : List Nat) (g : Nat) : (shuffle l g).1.length = l.length :=
  (shuffle_perm l g).length_eq

theorem shuffle_subset (l : List Nat) (g : Nat) : ∀ x ∈ (shuffle l g).1, x ∈ l :=
  fun _ hx => (shuffle_perm l g).subset hx

theorem shuffle_nodup (l : List Nat) (g : Nat) (h : l.Nodup) : (shuffle l g).1.Nodup :=
  h.perm (shuffle_perm l g).symm

/-- Evaluation of `sensitivity` in the default `test=False` mode: the
denominator is the constant `1`, so the bare count is returned. -/
theorem sensitivity_false_eq (y_true y_pred : List Vec) :
    sensitivity y_true y_pred false = some (countAbnormalCorrect y_true y_pred : ℚ) := rfl

/-- Evaluation of `specificity` in the default `test=False` mode. -/
theorem specificity_false_eq (y_true y_pred : List Vec) :
    specificity y_true y_pred false = some (countNormalCorrect y_true y_pred : ℚ) := rfl

/-- Evaluation of `sensitivity` in `test=True` mode when the abnormal
subset has size other than `0` and `1`. -/
theorem sensitivity_true_eq (y_true y_pred : List Vec)
    (h1 : countAbnormal y_true ≠ 1) (h0 : countAbnormal y_true ≠ 0) :
    sensitivity y_true y_pred true =
      some ((countAbnormalCorrect y_true y_pred : ℚ) / (countAbnormal y_true : ℚ)) := by
  show (if countAbnormal y_true = 1 then (none : Option ℚ)
    else if countAbnormal y_true = 0 then none
    else some ((countAbnormalCorrect y_true y_pred : ℚ) / (countAbnormal y_true : ℚ))) = _
  rw [if_neg h1, if_neg h0]

/-- C3, counterexample.  The claim says `sensitivity` returns the
fraction of correctly predicted abnormal samples and in particular
`0.5` on true classes `[0,1,2,0]` and predictions `[0,1,0,0]`.  Called
as written (default `test=False`), the denominator is
`tf.where(y_true != 0).shape[1]`, which is the constant `1`, so the
function returns the raw count `1.0`, not the fraction `0.5`. -/
theorem C3_counterexample :
    sensitivity yTrueEx yPredEx false = some 1 ∧
    ¬ sensitivity yTrueEx yPredEx false = some (1 / 2) := by
  have h : sensitivity yTrueEx yPredEx false = some 1 := by
    norm_num [sensitivity, yTrueEx, yPredEx, tfArgmax, vecMax, List.findIdx?]
  refine ⟨h, ?_⟩
  rw [h]
  norm_num

/-- C3, amended.  With `test=True` (the mode the final evaluation
`matrices` uses) and at least two abnormal-true samples, `sensitivity`
returns the fraction of samples with non-zero true argmax whose
predicted argmax matches, among all non-zero-true samples; on the
spec's example (`[0,1,2,0]` vs `[0,1,0,0]`) this is `0.5`.  (With zero
or one abnormal sample the `test=True` path yields `NaN` resp. an
`IndexError`, and with `test=False` it returns the bare count.) -/
theorem C3_sensitivity_fraction (y_true y_pred : List Vec)
    (h2 : 2 ≤ countAbnormal y_true) :
    sensitivity y_true y_pred true =
      some ((countAbnormalCorrect y_true y_pred : ℚ) / (countAbnormal y_true : ℚ)) ∧
    sensitivity yTrueEx yPredEx true = some (1 / 2) := by
  refine ⟨sensitivity_true_eq y_true y_pred (by omega) (by omega), ?_⟩
  rw [sensitivity_true_eq yTrueEx yPredEx (by decide) (by decide)]
  norm_num [yTrueEx, yPredEx, countAbnormal, countAbnormalCorrect, tfArgmax, vecMax,
    List.findIdx?]

/-- C3 witness: the hypothesis of `C3_sensitivity_fraction` holds on
the spec's example, where the fraction is `1/2`. -/
theorem C3_witness :
    2 ≤ countAbnormal yTrueEx ∧
    sensitivity yTrueEx yPredEx true =
      some ((countAbnormalCorrect yTrueEx yPredEx : ℚ) / (countAbnormal yTrueEx : ℚ)) :=
  ⟨by decide, (C3_sensitivity_fraction yTrueEx yPredEx (by decide)).1⟩

/-- C4, counterexample.  The claim says every metric evaluator returns
the sentinel `0` on an empty true-class subset.  In `test=True` mode,
an input with no abnormal-true sample makes `sensitivity` compute
`0.0/0.0 = NaN` (modelled `none`), not `0`. -/
theorem C4_counterexample :
    sensitivity [[1, 0, 0, 0]] [[1, 0, 0, 0]] true = none ∧
    ¬ sensitivity [[1, 0, 0, 0]] [[1, 0, 0, 0]] true = some 0 := by
  have h : sensitivity [[1, 0, 0, 0]] [[1, 0, 0, 0]] true = none := by
    norm_num [sensitivity, tfArgmax, vecMax, List.findIdx?]
  exact ⟨h, by rw [h]; simp⟩

/-- C4, amended.  In the default (`test=False`) mode, `sensitivity`
returns `0` when no sample has a non-zero true class and `specificity`
returns `0` when no sample has a zero true class (each denominator
collapses to the constant `1`), and in every mode `harmonic_mean`
returns exactly `0` whenever `se + sp = 0`.  In `test=True` mode an
empty subset instead yields `NaN`. -/
theorem C4_zero_denominators :
    (∀ y_true y_pred : List Vec, countAbnormal y_true = 0 →
      sensitivity y_true y_pred false = some 0) ∧
    (∀ y_true y_pred : List Vec, countNormal y_true = 0 →
      specificity y_true y_pred false = some 0) ∧
    (∀ (y_true y_pred : List Vec) (t : Bool) (se sp : ℚ),
      sensitivity y_true y_pred t = some se → specificity y_true y_pred t = some sp →
      se + sp = 0 → harmonic_mean y_true y_pred t = some 0) := by
  refine ⟨fun y_true y_pred h => ?_, fun y_true y_pred h => ?_, ?_⟩
  · have hz : countAbnormalCorrect y_true y_pred = 0 := by
      rw [countAbnormalCorrect, List.countP_eq_zero]
      intro q hq
      have hq1 : q.1 ∈ y_true.map tfArgmax := (List.of_mem_zip hq).1
      have h0 := (List.countP_eq_zero.mp h) q.1 hq1
      simp only [decide_eq_true_eq, Decidable.not_not] at h0
      simp [h0]
    rw [sensitivity_false_eq, hz]
    norm_num
  · have hz : countNormalCorrect y_true y_pred = 0 := by
      rw [countNormalCorrect, List.countP_eq_zero]
      intro q hq
      have hq1 : q.1 ∈ y_true.map tfArgmax := (List.of_mem_zip hq).1
      have h0 := (List.countP_eq_zero.mp h) q.1 hq1
      simp only [decide_eq_true_eq] at h0
      simp [h0]
    rw [specificity_false_eq, hz]
    norm_num
  · intro y_true y_pred t se sp hse hsp hsum
    simp [harmonic_mean, hse, hsp, hsum]

/-- C4 witness: on a single normal-true sample there is no abnormal
sample, and default-mode `sensitivity` returns `0`; with `se = sp = 0`
(one normal sample predicted abnormal, under `test=False`),
`harmonic_mean` returns `0`. -/
theorem C4_witness :
    (countAbnormal [[1, 0, 0, 0]] = 0 ∧
      sensitivity [[1, 0, 0, 0]] [[1, 0, 0, 0]] false = some 0) ∧
    (sensitivity [[1, 0, 0, 0]] [[0, 1, 0, 0]] false = some 0 ∧
      specificity [[1, 0, 0, 0]] [[0, 1, 0, 0]] false = some 0 ∧
      harmonic_mean [[1, 0, 0, 0]] [[0, 1, 0, 0]] false = some 0) := by
  have hse : sensitivity [[1, 0, 0, 0]] [[0, 1, 0, 0]] false = some 0 := by
    norm_num [sensitivity, tfArgmax, vecMax, List.findIdx?]
  have hsp : specificity [[1, 0, 0, 0]] [[0, 1, 0, 0]] false = some 0 := by
    norm_num [specificity, tfArgmax, vecMax, List.findIdx?]
  exact ⟨⟨by decide, C4_zero_denominators.1 _ _ (by decide)⟩,
    hse, hsp, C4_zero_denominators.2.2 _ _ false 0 0 hse hsp (by norm_num)⟩

theorem hopLoop_zero (len w hop : Nat) : hopLoop 0 len w hop = hop := rfl

theorem hopLoop_succ (fuel len w hop : Nat) :
    hopLoop (fuel + 1) len w hop =
      if w < numFrames len hop then hopLoop fuel len w (hop + 2) else hop := rfl

theorem hopLoop_post (fuel len w hop : Nat) (hw : 0 < w) (hfuel : len < hop + 2 * fuel) :
    numFrames len (hopLoop fuel len w hop) ≤ w := by
  induction fuel generalizing hop with
  | zero =>
    rw [hopLoop_zero]
    have hd : len / hop = 0 := Nat.div_eq_of_lt (by omega)
    simp only [numFrames, hd]
    omega
  | succ n ih =>
    rw [hopLoop_succ]
    by_cases hc : w < numFrames len hop
    · rw [if_pos hc]
      exact ih (hop + 2) (by omega)
    · rw [if_neg hc]
      omega

theorem hopLoop_stable (fuel len w hop : Nat) (hw : 0 < w) (hfuel : len < hop + 2 * fuel) :
    hopLoop (fuel + 1) len w hop = hopLoop fuel len w hop := by
  induction fuel generalizing hop with
  | zero =>
    have hlt : len < hop := by omega
    have hnf : numFrames len hop = 1 := by
      simp only [numFrames, Nat.div_eq_of_lt hlt]
    rw [hopLoop_succ, hnf, if_neg (by omega), hopLoop_zero]
  | succ n ih =>
    rw [hopLoop_succ]
    conv_rhs => rw [hopLoop_succ]
    by_cases hc : w < numFrames len hop
    · rw [if_pos hc, if_pos hc]
      exact ih (hop + 2) (by omega)
    · rw [if_neg hc, if_neg hc]

/-- C8.  For a non-empty segment the mel-variant adaptive hop search
terminates: `len + 1` loop iterations always suffice (running the loop
with any extra fuel returns the same hop), and the frame count at the
found hop satisfies `h ≤ w`, i.e. the spectrogram entering the padding
step is no wider than `n_mels`. -/
theorem C8_hop_search_terminates (len w hop : Nat) (hlen : 0 < len) (hw : 0 < w) :
    numFrames len (hopSearch len w hop) ≤ w ∧
    ∀ extra, hopLoop (len + 1 + extra) len w hop = hopSearch len w hop := by
  constructor
  · exact hopLoop_post (len + 1) len w hop hw (by omega)
  · intro extra
    induction extra with
    | zero => rfl
    | succ n ih =>
      have : len + 1 + (n + 1) = (len + 1 + n) + 1 := by omega
      rw [this, hopLoop_stable (len + 1 + n) len w hop hw (by omega), ih]

/-- C8 witness: a segment of length 10 with `n_mels = 3` and initial
hop 1; the search stops at hop 5, where the frame count is `3 ≤ 3`. -/
theorem C8_witness :
    (0 < 10 ∧ 0 < 3) ∧
    (numFrames 10 (hopSearch 10 3 1) ≤ 3 ∧
      ∀ extra, hopLoop (10 + 1 + extra) 10 3 1 = hopSearch 10 3 1) :=
  ⟨⟨by decide, by decide⟩, C8_hop_search_terminates 10 3 1 (by decide) (by decide)⟩

theorem le_foldl_max (l : List ℚ) (a : ℚ) : a ≤ l.foldl max a := by
  induction l generalizing a with
  | nil => exact le_refl a
  | cons x xs ih => exact le_trans (le_max_left a x) (ih (max a x))

theorem mem_le_foldl_max (l : List ℚ) (a x : ℚ) (hx : x ∈ l) : x ≤ l.foldl max a := by
  induction l generalizing a with
  | nil => cases hx
  | cons y ys ih =>
    rcases List.mem_cons.mp hx with h | h
    · subst h
      exact le_trans (le_max_right a x) (le_foldl_max ys (max a x))
    · exact ih (max a y) h

theorem foldl_min_le (l : List ℚ) (a : ℚ) : l.foldl min a ≤ a := by
  induction l generalizing a with
  | nil => exact le_refl a
  | cons x xs ih => exact le_trans (ih (min a x)) (min_le_left a x)

theorem foldl_min_le_mem (l : List ℚ) (a x : ℚ) (hx : x ∈ l) : l.foldl min a ≤ x := by
  induction l generalizing a with
  | nil => cases hx
  | cons y ys ih =>
    rcases List.mem_cons.mp hx with h | h
    · subst h
      exact le_trans (foldl_min_le ys (min a x)) (min_le_right a x)
    · exact ih (min a y) h

theorem le_matMax (S : Mat) (x : ℚ) (hx : x ∈ S.flatten) : x ≤ matMax S :=
  mem_le_foldl_max _ _ _ hx

theorem matMin_le (S : Mat) (x : ℚ) (hx : x ∈ S.flatten) : matMin S ≤ x :=
  foldl_min_le_mem _ _ _ hx

theorem power_to_db_isMat (lg : ℚ → ℚ) (S : Mat) (w h : Nat) (hm : isMat S w h) :
    isMat (power_to_db lg S) w h := by
  obtain ⟨hl, hr⟩ := hm
  refine ⟨by simp [power_to_db, hl], ?_⟩
  intro row hrow
  simp only [power_to_db, List.mem_map] at hrow
  obtain ⟨r1, hr1, hrow⟩ := hrow
  obtain ⟨r0, hr0, hr1⟩ := hr1
  subst hrow hr1
  simp [hr r0 hr0]

theorem scale01_shape (S : Mat) (w h : Nat) (hm : isMat S w h) :
    isGrid (scale01 S) w h := by
  obtain ⟨hl, hr⟩ := hm
  refine ⟨by simp [scale01, hl], ?_⟩
  intro row hrow
  simp only [scale01, List.mem_map] at hrow
  obtain ⟨r0, hr0, hrow⟩ := hrow
  subst hrow
  simp [hr r0 hr0]

theorem scale01_vals (S : Mat) (hnd : matMin S < matMax S) :
    ∀ row ∈ scale01 S, ∀ v ∈ row, pix01 v := by
  intro row hrow v hv
  simp only [scale01, List.mem_map] at hrow
  obtain ⟨r0, hr0, hrow⟩ := hrow
  subst hrow
  simp only [List.mem_map] at hv
  obtain ⟨x, hx, hv⟩ := hv
  have hque : (0:ℚ) < matMax S - matMin S := by linarith
  rw [if_neg (by linarith)] at hv
  subst hv
  have hmem : x ∈ S.flatten := List.mem_flatten.mpr ⟨r0, hr0, hx⟩
  constructor
  · exact div_nonneg (by linarith [matMin_le S x hmem]) (le_of_lt hque)
  · rw [div_le_one hque]
    linarith [le_matMax S x hmem]

theorem padSquare_shape (w h : Nat) (G : List (List Pix)) (hg : isGrid G w h)
    (hhw : h ≤ w) : isGrid (padSquare w h G) w w := by
  obtain ⟨hl, hr⟩ := hg
  by_cases hc : h < w
  · refine ⟨by simp [padSquare, hc, hl], ?_⟩
    intro row hrow
    simp only [padSquare, if_pos hc, List.mem_map] at hrow
    obtain ⟨r0, hr0, hrow⟩ := hrow
    subst hrow
    simp only [List.length_append, List.length_replicate, hr r0 hr0]
    omega
  · have hw : h = w := by omega
    subst hw
    exact ⟨by simp [padSquare, hc, hl], by simpa [padSquare, hc] using hr⟩

theorem padSquare_vals (w h : Nat) (G : List (List Pix))
    (hv : ∀ row ∈ G, ∀ v ∈ row, pix01 v) :
    ∀ row ∈ padSquare w h G, ∀ v ∈ row, pix01 v := by
  intro row hrow v hvv
  by_cases hc : h < w
  · simp only [padSquare, if_pos hc, List.mem_map] at hrow
    obtain ⟨r0, hr0, hrow⟩ := hrow
    subst hrow
    rcases List.mem_append.mp hvv with hin | hin
    · rcases List.mem_append.mp hin with hz | hm0
      · rw [List.eq_of_mem_replicate hz]
        exact ⟨le_refl 0, zero_le_one⟩
      · exact hv r0 hr0 v hm0
    · rw [List.eq_of_mem_replicate hin]
      exact ⟨le_refl 0, zero_le_one⟩
  · simp only [padSquare, if_neg hc] at hrow
    exact hv row hrow v hvv

/-- C1, amended.  For any mel power matrix of shape `(w, h)` with
`0 < h ≤ w` (the shape the adaptive hop search hands to the value
pipeline) whose decibel rescaling is not constant, the renderer output
is a square `w × w` image with every value finite and in `[0, 1]`, of
shape `(1, w, w, 1)`.  The non-constancy hypothesis is forced by the
counterexample `C1_counterexample`: a degenerate (e.g. all-zero)
segment gives `min == max` and an all-`NaN` image. -/
theorem C1_renderer_square_unit (lg : ℚ → ℚ) (S : Mat) (w h : Nat)
    (hmat : isMat S w h) (hh : 0 < h) (hhw : h ≤ w)
    (hnd : matMin (power_to_db lg S) < matMax (power_to_db lg S)) :
    imgShape (create_spectrograms_raw lg S) 1 w w 1 ∧
    imgVals01 (create_spectrograms_raw lg S) := by
  have hw : 0 < w := lt_of_lt_of_le hh hhw
  have hD := power_to_db_isMat lg S w h hmat
  have hDlen : (power_to_db lg S).length = w := hD.1
  have hDne : power_to_db lg S ≠ [] := by
    intro hnil
    rw [hnil] at hDlen
    simp at hDlen
    omega
  obtain ⟨d0, rest, hcons⟩ := List.exists_cons_of_ne_nil hDne
  have hhead : (power_to_db lg S).headD [] = d0 := by rw [hcons]; rfl
  have hhlen : ((power_to_db lg S).headD []).length = h := by
    rw [hhead]
    exact hD.2 d0 (by rw [hcons]; exact List.mem_cons_self d0 rest)
  have hgrid := scale01_shape (power_to_db lg S) w h hD
  have hpad := padSquare_shape w h (scale01 (power_to_db lg S)) hgrid hhw
  have hvals := padSquare_vals w h (scale01 (power_to_db lg S))
    (scale01_vals (power_to_db lg S) hnd)
  constructor
  · refine ⟨rfl, ?_⟩
    intro plane hplane
    simp only [create_spectrograms_raw, hDlen, hhlen, List.mem_singleton] at hplane
    subst hplane
    refine ⟨by simp [hpad.1], ?_⟩
    intro row hrow
    simp only [List.mem_map] at hrow
    obtain ⟨r0, hr0, hrow⟩ := hrow
    subst hrow
    refine ⟨by simp [hpad.2 r0 hr0], ?_⟩
    intro pix hpix
    simp only [List.mem_map] at hpix
    obtain ⟨x, _, hpix⟩ := hpix
    subst hpix
    rfl
  · intro plane hplane
    simp only [create_spectrograms_raw, hDlen, hhlen, List.mem_singleton] at hplane
    subst hplane
    intro row hrow pix hpix v hv
    simp only [List.mem_map] at hrow
    obtain ⟨r0, hr0, hrow⟩ := hrow
    subst hrow
    simp only [List.mem_map] at hpix
    obtain ⟨x, hx, hpix⟩ := hpix
    subst hpix
    have hveq : v = x := List.mem_singleton.mp hv
    subst hveq
    exact hvals r0 hr0 v hx

/-- Shared evaluation: the renderer on the degenerate all-zero
`2 × 2` mel power matrix (the spectrogram of an all-zero segment)
produces the all-`NaN` image, for any model of `log10`: `power_to_db`
maps the constant matrix to a constant matrix, so `max - min = 0` and
every normalised entry is `0.0/0.0`. -/
theorem render_zero2_eq (lg : ℚ → ℚ) :
    create_spectrograms_raw lg [[0, 0], [0, 0]] =
      [[[[none], [none]], [[none], [none]]]] := by
  have hmax : matMax [[(0:ℚ), 0], [0, 0]] = 0 := by
    simp [matMax, List.flatten]
  have hdb : power_to_db lg [[0, 0], [0, 0]] = [[0, 0], [0, 0]] := by
    simp only [power_to_db, hmax, List.map_cons, List.map_nil, sub_self]
    norm_num [matMax, List.flatten, max_eq_left]
  rw [create_spectrograms_raw, hdb]
  norm_num [scale01, padSquare, matMax, matMin, List.flatten, List.replicate]

/-- C1, counterexample.  The claim quantifies over every non-empty
segment, but the all-zero segment (mel power matrix identically zero)
yields `min == max` in the normalisation step and the output values
are `NaN`, not members of `[0, 1]` (here at the numpy-default
`log10`-model `fun x => x`; the computation is independent of it). -/
theorem C1_counterexample :
    ¬ imgVals01 (create_spectrograms_raw (fun x => x) [[0, 0], [0, 0]]) := by
  rw [render_zero2_eq]
  decide

/-- C1 witness: the hypotheses of `C1_renderer_square_unit` hold for
the concrete non-degenerate `2 × 2` mel power matrix `[[0,1],[2,3]]`
(with the `log10` model `fun x => x`), and the renderer output is a
square image with unit-interval values and shape `(1, 2, 2, 1)`. -/
theorem C1_witness :
    (isMat [[0, 1], [2, 3]] 2 2 ∧ 0 < 2 ∧ 2 ≤ 2 ∧
      matMin (power_to_db (fun x => x) [[0, 1], [2, 3]]) <
        matMax (power_to_db (fun x => x) [[0, 1], [2, 3]])) ∧
    (imgShape (create_spectrograms_raw (fun x => x) [[0, 1], [2, 3]]) 1 2 2 1 ∧
      imgVals01 (create_spectrograms_raw (fun x => x) [[0, 1], [2, 3]])) := by
  have h1 : isMat [[(0:ℚ), 1], [2, 3]] 2 2 := by simp [isMat]
  have h4 : matMin (power_to_db (fun x => x) [[0, 1], [2, 3]]) <
      matMax (power_to_db (fun x => x) [[0, 1], [2, 3]]) := by
    norm_num [power_to_db, matMax, matMin, np_amin, List.flatten, max_def]
  exact ⟨⟨h1, by norm_num, by norm_num, h4⟩,
    C1_renderer_square_unit (fun x => x) [[0, 1], [2, 3]] 2 2 h1 (by norm_num) (by norm_num) h4⟩

/-- C2.  On a degenerate (constant, e.g. all-zero) segment the
renderer does not raise, but contrary to the claim it does not return
a defined fallback image either: `(S - min) / (max - min)` divides `0`
by `0` in every cell and the whole image is `NaN`. -/
theorem C2_degenerate_nan (lg : ℚ → ℚ) :
    imgAllNaN (create_spectrograms_raw lg [[0, 0], [0, 0]]) := by
  rw [render_zero2_eq]
  decide

/-- C9.  `two_permutation_data` reseeds the global numpy generator with
the fixed seed `0` on every call (line 267), so its result — both
balanced views and the final generator state — is independent of the
generator state at call time: two invocations on the same pool and
flag coincide. -/
theorem C9_balancer_deterministic (g g2 : Nat) (ds : DS) (hn : Bool) :
    two_permutation_data g ds hn = two_permutation_data g2 ds hn := rfl

theorem mem_of_labelClass_some (v : Vec) (c : Nat) (h : labelClass v = some c) :
    (1 : ℚ) ∈ v := by
  induction v generalizing c with
  | nil => cases h
  | cons x xs ih =>
    rw [labelClass] at h
    by_cases hx : x == 1
    · have hx1 : x = 1 := by simpa using hx
      subst hx1
      exact List.mem_cons_self 1 xs
    · rw [if_neg hx] at h
      rcases Option.map_eq_some'.mp h with ⟨i, hi, _⟩
      exact List.mem_cons_of_mem x (ih i hi)

theorem labelClass_none_of_not_mem (v : Vec) (h : (1 : ℚ) ∉ v) : labelClass v = none := by
  cases hlc : labelClass v with
  | none => rfl
  | some c => exact absurd (mem_of_labelClass_some v c hlc) h

theorem onehot_to_some_mem (labels : List Vec) (r : List Nat)
    (h : onehot_to labels = some r) : ∀ v ∈ labels, (1 : ℚ) ∈ v := by
  induction labels generalizing r with
  | nil => intro v hv; cases hv
  | cons u us ih =>
    intro v hv
    rw [onehot_to] at h
    cases hu : labelClass u with
    | none => rw [hu] at h; cases h
    | some c =>
      rw [hu] at h
      cases hus : onehot_to us with
      | none => rw [hus] at h; cases h
      | some rs =>
        rcases List.mem_cons.mp hv with hveq | hvm
        · subst hveq
          exact mem_of_labelClass_some v c hu
        · exact ih rs hus v hvm

theorem onehot_to_eq_none (labels : List Vec) (v : Vec) (hv : v ∈ labels)
    (hlc : labelClass v = none) : onehot_to labels = none := by
  induction labels with
  | nil => cases hv
  | cons u us ih =>
    rw [onehot_to]
    rcases List.mem_cons.mp hv with hveq | hvm
    · subst hveq
      rw [hlc]
    · rw [ih hvm]
      cases labelClass u <;> rfl

theorem list_sum_nonneg (l : List ℚ) (h : ∀ x ∈ l, 0 ≤ x) : 0 ≤ l.sum := by
  induction l with
  | nil => simp
  | cons x xs ih =>
    rw [List.sum_cons]
    have hx := h x (List.mem_cons_self x xs)
    have hxs := ih (fun y hy => h y (List.mem_cons_of_mem x hy))
    linarith

theorem all_zero_of_sum_zero (l : List ℚ) (hnn : ∀ x ∈ l, 0 ≤ x) (hs : l.sum = 0) :
    ∀ x ∈ l, x = 0 := by
  induction l with
  | nil => intro x hx; cases hx
  | cons y ys ih =>
    intro x hx
    rw [List.sum_cons] at hs
    have hy := hnn y (List.mem_cons_self y ys)
    have hys := list_sum_nonneg ys (fun z hz => hnn z (List.mem_cons_of_mem y hz))
    rcases List.mem_cons.mp hx with hxe | hxm
    · subst hxe; linarith
    · exact ih (fun z hz => hnn z (List.mem_cons_of_mem y hz)) (by linarith) x hxm

theorem not_one_mem_of_soft (v : Vec) (hnn : ∀ x ∈ v, 0 ≤ x) (hs : v.sum = 1)
    (hsoft : ¬ isOneHot v = true) : (1 : ℚ) ∉ v := by
  intro hmem
  apply hsoft
  obtain ⟨s, t, hv⟩ := List.append_of_mem hmem
  subst hv
  have hsum : s.sum + (1 + t.sum) = 1 := by
    simpa [List.sum_append, List.sum_cons] using hs
  have hsnn : 0 ≤ s.sum := list_sum_nonneg s (fun x hx => hnn x (by simp [hx]))
  have htnn : 0 ≤ t.sum := list_sum_nonneg t (fun x hx => hnn x (by simp [hx]))
  have hs0 : s.sum = 0 := by linarith
  have ht0 : t.sum = 0 := by linarith
  have hsz := all_zero_of_sum_zero s (fun x hx => hnn x (by simp [hx])) hs0
  have htz := all_zero_of_sum_zero t (fun x hx => hnn x (by simp [hx])) ht0
  have hs1 : s.count (1 : ℚ) = 0 := by
    rw [List.count_eq_zero]
    intro hin
    exact one_ne_zero (hsz 1 hin)
  have ht1 : t.count (1 : ℚ) = 0 := by
    rw [List.count_eq_zero]
    intro hin
    exact one_ne_zero (htz 1 hin)
  rw [isOneHot]
  refine (Bool.and_eq_true _ _).mpr ⟨?_, ?_⟩
  · simp [List.count_append, List.count_cons, hs1, ht1]
  · rw [List.all_eq_true]
    intro x hx
    rcases List.mem_append.mp hx with hxs | hxc
    · simp [hsz x hxs]
    · rcases List.mem_cons.mp hxc with hx1 | hxt
      · simp [hx1]
      · simp [htz x hxt]

/-- C10.  `onehot_to` (and hence `two_permutation_data`, which applies
it to every label row first) requires each label row to contain an
entry exactly equal to `1`: whenever it succeeds every row contains a
`1`, and on any pool containing a soft label row (entries non-negative
summing to `1` but not one-hot, as synthesized by `mix_up`) both
`onehot_to` and `two_permutation_data` raise `ValueError` (modelled
`none`) instead of returning class indices. -/
theorem C10_onehot_requires_exact_one :
    (∀ (labels : List Vec) (r : List Nat), onehot_to labels = some r →
      ∀ v ∈ labels, (1 : ℚ) ∈ v) ∧
    (∀ (g : Nat) (ds : DS) (hn : Bool), ∀ v ∈ ds.lab,
      (∀ x ∈ v, 0 ≤ x) → v.sum = 1 → ¬ isOneHot v = true →
      onehot_to ds.lab = none ∧ two_permutation_data g ds hn = none) := by
  refine ⟨onehot_to_some_mem, ?_⟩
  intro g ds hn v hv hnn hs hsoft
  have hnone : onehot_to ds.lab = none :=
    onehot_to_eq_none ds.lab v hv
      (labelClass_none_of_not_mem v (not_one_mem_of_soft v hnn hs hsoft))
  exact ⟨hnone, by rw [two_permutation_data, hnone]; rfl⟩

/-- C10 witness: the pool whose only label row is the soft vector
`[1/2, 1/2, 0, 0]` (a typical mixup output) satisfies the hypotheses,
and both `onehot_to` and `two_permutation_data` return `none`. -/
theorem C10_witness :
    ((1 : ℚ) ∈ [(1 : ℚ) / 2, 1 / 2, 0, 0] → False) ∧
    (∀ x ∈ [(1 : ℚ) / 2, 1 / 2, 0, 0], 0 ≤ x) ∧
    [(1 : ℚ) / 2, 1 / 2, 0, 0].sum = 1 ∧
    ¬ isOneHot [(1 : ℚ) / 2, 1 / 2, 0, 0] = true ∧
    onehot_to [[(1 : ℚ) / 2, 1 / 2, 0, 0]] = none ∧
    two_permutation_data 0 ⟨[[]], [[]], [[(1 : ℚ) / 2, 1 / 2, 0, 0]]⟩ false = none := by
  have hnn : ∀ x ∈ [(1 : ℚ) / 2, 1 / 2, 0, 0], 0 ≤ x := by
    intro x hx
    fin_cases hx <;> norm_num
  have hsum : [(1 : ℚ) / 2, 1 / 2, 0, 0].sum = 1 := by norm_num
  have hsoft : ¬ isOneHot [(1 : ℚ) / 2, 1 / 2, 0, 0] = true := by
    rw [isOneHot]
    norm_num [List.count_cons]
  have hmain := (C10_onehot_requires_exact_one).2 0
    ⟨[[]], [[]], [[(1 : ℚ) / 2, 1 / 2, 0, 0]]⟩ false
    [(1 : ℚ) / 2, 1 / 2, 0, 0] (List.mem_cons_self _ _) hnn hsum hsoft
  refine ⟨?_, hnn, hsum, hsoft, hmain.1, hmain.2⟩
  intro hmem
  exact absurd hmem (not_one_mem_of_soft _ hnn hsum hsoft)

theorem npMin_le (l : List Nat) (x : Nat) (hx : x ∈ l) : npMin l ≤ x := by
  induction l with
  | nil => cases hx
  | cons y ys ih =>
    cases ys with
    | nil =>
      rcases List.mem_cons.mp hx with h | h
      · subst h; exact le_refl x
      · cases h
    | cons z zs =>
      rcases List.mem_cons.mp hx with h | h
      · subst h
        exact min_le_left _ _
      · exact le_trans (min_le_right _ _) (ih h)

theorem onehot_to_get (labs : List Vec) (nl : List Nat) (h : onehot_to labs = some nl) :
    nl.length = labs.length ∧
    ∀ (j c : Nat), nl[j]? = some c → ∃ v, labs[j]? = some v ∧ labelClass v = some c := by
  induction labs generalizing nl with
  | nil =>
    rw [onehot_to] at h
    cases h
    exact ⟨rfl, by intro j c hc; cases hc⟩
  | cons u us ih =>
    rw [onehot_to] at h
    cases hu : labelClass u with
    | none => rw [hu] at h; cases h
    | some c0 =>
      rw [hu] at h
      cases hus : onehot_to us with
      | none => rw [hus] at h; cases h
      | some rs =>
        rw [hus] at h
        cases h
        obtain ⟨hlen, hget⟩ := ih rs hus
        refine ⟨by simp [hlen], ?_⟩
        intro j c hc
        cases j with
        | zero =>
          simp only [List.getElem?_cons_zero, Option.some_inj] at hc
          exact ⟨u, by simp, by rw [hu, hc]⟩
        | succ n =>
          simp only [List.getElem?_cons_succ] at hc ⊢
          exact hget n c hc

theorem dictGet_mem (d : List (Nat × List Nat)) (k : Nat)
    (hk : k ∈ d.map (fun p => p.1)) : (k, dictGet d k) ∈ d := by
  induction d with
  | nil => cases hk
  | cons p rest ih =>
    rw [dictGet]
    by_cases hpk : p.1 = k
    · rw [if_pos hpk]
      subst hpk
      exact List.mem_cons_self p rest
    · rw [if_neg hpk]
      rw [List.map_cons] at hk
      rcases List.mem_cons.mp hk with h | h
      · exact absurd h.symm hpk
      · exact List.mem_cons_of_mem p (ih h)

theorem dictAppend_spec (d : List (Nat × List Nat)) (k v : Nat) (nl : List Nat)
    (hk : k ∈ d.map (fun p => p.1))
    (hinv : ∀ p ∈ d, ∀ j ∈ p.2, nl[j]? = some p.1)
    (hkv : nl[v]? = some k) :
    ∃ e, dictAppend d k v = some e ∧
      e.map (fun p => p.1) = d.map (fun p => p.1) ∧
      (∀ p ∈ e, ∀ j ∈ p.2, nl[j]? = some p.1) := by
  refine ⟨d.map (fun p => if p.1 = k then (p.1, p.2 ++ [v]) else p),
    by rw [dictAppend, if_pos hk], ?_, ?_⟩
  · rw [List.map_map]
    apply List.map_congr_left
    intro p _
    by_cases hpk : p.1 = k
    · simp [hpk]
    · simp [hpk]
  · intro p hp j hj
    simp only [List.mem_map] at hp
    obtain ⟨q, hq, hp⟩ := hp
    by_cases hqk : q.1 = k
    · rw [if_pos hqk] at hp
      subst hp
      simp only at hj ⊢
      rcases List.mem_append.mp hj with hj0 | hj1
      · exact hqk ▸ hinv q hq j hj0
      · rw [List.mem_singleton.mp hj1, hqk]
        exact hkv
    · rw [if_neg hqk] at hp
      subst hp
      exact hinv q hq j hj

theorem mem_keys_of_class (hn : Bool) (c : Nat) (hc : c < 4)
    (hc0 : hn = false → c ≠ 0) : c ∈ (emptyBuckets hn).map (fun p => p.1) := by
  cases hn with
  | false =>
    have := hc0 rfl
    simp [emptyBuckets]
    omega
  | true =>
    simp [emptyBuckets]
    omega

theorem bucketsGo_spec (hn : Bool) (nl : List Nat) (hcls : ∀ c ∈ nl, c < 4) :
    ∀ (cs : List Nat) (idx : Nat) (d : List (Nat × List Nat)),
      nl.drop idx = cs →
      d.map (fun p => p.1) = (emptyBuckets hn).map (fun p => p.1) →
      (∀ p ∈ d, ∀ j ∈ p.2, nl[j]? = some p.1) →
      ∃ e, bucketsGo hn cs idx d = some e ∧
        e.map (fun p => p.1) = (emptyBuckets hn).map (fun p => p.1) ∧
        (∀ p ∈ e, ∀ j ∈ p.2, nl[j]? = some p.1) := by
  intro cs
  induction cs with
  | nil =>
    intro idx d _ hkeys hinv
    exact ⟨d, rfl, hkeys, hinv⟩
  | cons c cs2 ih =>
    intro idx d hdrop hkeys hinv
    have hgetc : nl[idx]? = some c := by
      rw [← List.head?_drop, hdrop]
      rfl
    have hcnl : c ∈ nl := List.getElem?_mem hgetc
    have hdrop2 : nl.drop (idx + 1) = cs2 := by
      rw [← List.drop_drop, hdrop]
      rfl
    rw [bucketsGo]
    cases hn with
    | true =>
      have hk : c ∈ d.map (fun p => p.1) := by
        rw [hkeys]
        exact mem_keys_of_class true c (hcls c hcnl) (by intro h; cases h)
      obtain ⟨e, he, hekeys, heinv⟩ := dictAppend_spec d c idx nl hk hinv hgetc
      rw [if_pos rfl, he, Option.some_bind]
      exact ih (idx + 1) e hdrop2 (hekeys.trans hkeys) heinv
    | false =>
      rw [if_neg (by simp)]
      by_cases hc0 : c = 0
      · rw [if_neg (by simp [hc0])]
        exact ih (idx + 1) d hdrop2 hkeys hinv
      · rw [if_pos (by simpa using hc0)]
        have hk : c ∈ d.map (fun p => p.1) := by
          rw [hkeys]
          exact mem_keys_of_class false c (hcls c hcnl) (fun _ => hc0)
        obtain ⟨e, he, hekeys, heinv⟩ := dictAppend_spec d c idx nl hk hinv hgetc
        rw [he, Option.some_bind]
        exact ih (idx + 1) e (by rw [hdrop2]) (hekeys.trans hkeys) heinv

theorem selectClasses_nil (xs ys labs : List Vec) (m g : Nat) :
    selectClasses xs ys labs m [] g = ⟨[], [], [], g⟩ := rfl

theorem selectClasses_cons (xs ys labs : List Vec) (m : Nat) (c : Nat) (b : List Nat)
    (rest : List (Nat × List Nat)) (g : Nat) :
    selectClasses xs ys labs m ((c, b) :: rest) g =
      ⟨gatherRows xs ((shuffle b g).1.take m) ++
          (selectClasses xs ys labs m rest (shuffle b g).2).d1,
        gatherRows ys ((shuffle b g).1.take m) ++
          (selectClasses xs ys labs m rest (shuffle b g).2).d2,
        gatherRows labs ((shuffle b g).1.take m) ++
          (selectClasses xs ys labs m rest (shuffle b g).2).lab,
        (selectClasses xs ys labs m rest (shuffle b g).2).g⟩ := rfl

theorem gatherRows_length (xs : List Vec) (idxs : List Nat) :
    (gatherRows xs idxs).length = idxs.length := by
  simp [gatherRows]

theorem selectClasses_lengths (xs ys labs : List Vec) (m : Nat) :
    ∀ (order : List (Nat × List Nat)) (g : Nat),
      (∀ p ∈ order, m ≤ p.2.length) →
      (selectClasses xs ys labs m order g).lab.length = order.length * m ∧
      (selectClasses xs ys labs m order g).d1.length = order.length * m ∧
      (selectClasses xs ys labs m order g).d2.length = order.length * m := by
  intro order
  induction order with
  | nil =>
    intro g _
    simp [selectClasses_nil]
  | cons p rest ih =>
    obtain ⟨c, b⟩ := p
    intro g hm
    have hsel : ((shuffle b g).1.take m).length = m := by
      rw [List.length_take, shuffle_length]
      exact min_eq_left (hm (c, b) (List.mem_cons_self _ _))
    obtain ⟨ih1, ih2, ih3⟩ := ih (shuffle b g).2
      (fun q hq => hm q (List.mem_cons_of_mem (c, b) hq))
    rw [selectClasses_cons]
    refine ⟨?_, ?_, ?_⟩ <;>
      simp only [List.length_append, gatherRows_length, hsel, ih1, ih2, ih3,
        List.length_cons, Nat.succ_mul] <;> omega

theorem gatherRows_class (labs : List Vec) (nl : List Nat) (c1 : Nat) (sel : List Nat)
    (honv : ∀ (j c : Nat), nl[j]? = some c → ∃ v, labs[j]? = some v ∧ labelClass v = some c)
    (hsel : ∀ j ∈ sel, nl[j]? = some c1) :
    ∀ v ∈ gatherRows labs sel, labelClass v = some c1 := by
  intro v hv
  simp only [gatherRows, List.mem_map] at hv
  obtain ⟨j, hj, hv⟩ := hv
  obtain ⟨u, hu, huc⟩ := honv j c1 (hsel j hj)
  subst hv
  rw [List.getD_eq_getElem?_getD, hu]
  simpa using huc

theorem selectClasses_countP (xs ys labs : List Vec) (m : Nat) (nl : List Nat)
    (honv : ∀ (j c : Nat), nl[j]? = some c → ∃ v, labs[j]? = some v ∧ labelClass v = some c) :
    ∀ (order : List (Nat × List Nat)) (g : Nat) (c : Nat),
      (∀ p ∈ order, ∀ j ∈ p.2, nl[j]? = some p.1) →
      (order.map (fun p => p.1)).Nodup →
      (selectClasses xs ys labs m order g).lab.countP (fun v => labelClass v == some c) ≤
        (if c ∈ order.map (fun p => p.1) then m else 0) := by
  intro order
  induction order with
  | nil =>
    intro g c _ _
    simp [selectClasses_nil]
  | cons p rest ih =>
    obtain ⟨c1, b⟩ := p
    intro g c hb hnd
    rw [List.map_cons, List.nodup_cons] at hnd
    obtain ⟨hnd1, hnd2⟩ := hnd
    have hselmem : ∀ j ∈ (shuffle b g).1.take m, nl[j]? = some c1 := by
      intro j hj
      exact hb (c1, b) (List.mem_cons_self _ _) j
        (shuffle_subset b g j (List.take_subset m _ hj))
    have hclass := gatherRows_class labs nl c1 ((shuffle b g).1.take m) honv hselmem
    have hbrest : ∀ p ∈ rest, ∀ j ∈ p.2, nl[j]? = some p.1 :=
      fun q hq => hb q (List.mem_cons_of_mem (c1, b) hq)
    have ihr := ih (shuffle b g).2 c hbrest hnd2
    rw [selectClasses_cons]
    simp only [List.countP_append]
    by_cases hcc : c = c1
    · subst hcc
      have h1 : (gatherRows labs ((shuffle b g).1.take m)).countP
          (fun v => labelClass v == some c) ≤ m := by
        refine le_trans (List.countP_le_length _) ?_
        rw [gatherRows_length, List.length_take, shuffle_length]
        exact min_le_left _ _
      have h2 : (selectClasses xs ys labs m rest (shuffle b g).2).lab.countP
          (fun v => labelClass v == some c) = 0 := by
        have := ihr
        rw [if_neg hnd1] at this
        omega
      rw [List.map_cons, if_pos (List.mem_cons_self _ _)]
      omega
    · have h1 : (gatherRows labs ((shuffle b g).1.take m)).countP
          (fun v => labelClass v == some c) = 0 := by
        rw [List.countP_eq_zero]
        intro v hv
        rw [hclass v hv]
        simp
        omega
      rw [List.map_cons]
      by_cases hmem : c ∈ rest.map (fun p => p.1)
      · rw [if_pos (List.mem_cons_of_mem _ hmem)]
        rw [if_pos hmem] at ihr
        omega
      · rw [if_neg ?hc]
        case hc =>
          intro hcon
          rcases List.mem_cons.mp hcon with h | h
          · exact hcc h
          · exact hmem h
        rw [if_neg hmem] at ihr
        omega

theorem selectClasses_lab_mem (xs ys labs : List Vec) (m : Nat) (nl : List Nat)
    (honv : ∀ (j c : Nat), nl[j]? = some c → ∃ v, labs[j]? = some v ∧ labelClass v = some c) :
    ∀ (order : List (Nat × List Nat)) (g : Nat),
      (∀ p ∈ order, ∀ j ∈ p.2, nl[j]? = some p.1) →
      ∀ v ∈ (selectClasses xs ys labs m order g).lab, v ∈ labs := by
  intro order
  induction order with
  | nil =>
    intro g _ v hv
    simp [selectClasses_nil] at hv
  | cons p rest ih =>
    obtain ⟨c1, b⟩ := p
    intro g hb v hv
    rw [selectClasses_cons] at hv
    rcases List.mem_append.mp hv with hv | hv
    · simp only [gatherRows, List.mem_map] at hv
      obtain ⟨j, hj, hv⟩ := hv
      have hjb : j ∈ b :=
        shuffle_subset b g j (List.take_subset m _ hj)
      obtain ⟨u, hu, _⟩ := honv j c1 (hb (c1, b) (List.mem_cons_self _ _) j hjb)
      subst hv
      rw [List.getD_eq_getElem?_getD, hu]
      simpa using List.getElem?_mem hu
    · exact ih (shuffle b g).2 (fun q hq => hb q (List.mem_cons_of_mem (c1, b) hq)) v hv

theorem emptyBuckets_keys_nodup (hn : Bool) :
    ((emptyBuckets hn).map (fun p => p.1)).Nodup := by
  cases hn <;> decide

theorem emptyBuckets_empty (hn : Bool) :
    ∀ p ∈ emptyBuckets hn, p.2 = [] := by
  cases hn with
  | false =>
    intro p hp
    have he : emptyBuckets false = [(1, []), (2, []), (3, [])] := rfl
    rw [he] at hp
    fin_cases hp <;> rfl
  | true =>
    intro p hp
    have he : emptyBuckets true = [(0, []), (1, []), (2, []), (3, [])] := rfl
    rw [he] at hp
    fin_cases hp <;> rfl

/-- Full specification of a successful `two_permutation_data` run:
both views have all three arrays of length `numClasses * minCount`,
every class contributes at most `minCount` label rows per view, and
every label row of either view is a row of the input pool. -/
theorem two_permutation_spec (g : Nat) (ds : DS) (hn : Bool) (nl : List Nat)
    (hon : onehot_to ds.lab = some nl) (hcls : ∀ c ∈ nl, c < 4) :
    ∃ p1 p2 g2, two_permutation_data g ds hn = some (p1, p2, g2) ∧
      p1.lab.length = numClasses hn * minCount ds hn ∧
      p2.lab.length = numClasses hn * minCount ds hn ∧
      p1.d1.length = p1.lab.length ∧ p1.d2.length = p1.lab.length ∧
      p2.d1.length = p2.lab.length ∧ p2.d2.length = p2.lab.length ∧
      (∀ c, p1.lab.countP (fun v => labelClass v == some c) ≤ minCount ds hn) ∧
      (∀ c, p2.lab.countP (fun v => labelClass v == some c) ≤ minCount ds hn) ∧
      (∀ v ∈ p1.lab, v ∈ ds.lab) ∧ (∀ v ∈ p2.lab, v ∈ ds.lab) := by
  obtain ⟨d, hd, hkeys, hinv⟩ := bucketsGo_spec hn nl hcls nl 0 (emptyBuckets hn)
    (List.drop_zero nl) rfl (fun p hp j hj => by
      rw [emptyBuckets_empty hn p hp] at hj
      cases hj)
  have hbuild : buildBuckets nl hn = some d := hd
  have honv := (onehot_to_get ds.lab nl hon).2
  set m := npMin (d.map (fun p => p.2.length)) with hmdef
  have hmle : ∀ p ∈ d, m ≤ p.2.length := fun p hp =>
    npMin_le _ _ (List.mem_map_of_mem (fun q => q.2.length) hp)
  have hminCount : minCount ds hn = m := by
    simp only [minCount, hon, Option.some_bind, hbuild]
  have hdlen : d.length = numClasses hn := by
    have h1 : (d.map (fun p => p.1)).length = ((emptyBuckets hn).map (fun p => p.1)).length := by
      rw [hkeys]
    simp only [List.length_map] at h1
    rw [h1]
    cases hn <;> rfl
  have hnd : (d.map (fun p => p.1)).Nodup := by
    rw [hkeys]
    exact emptyBuckets_keys_nodup hn
  obtain ⟨L1, L2, L3⟩ := selectClasses_lengths ds.d1 ds.d2 ds.lab m d (npSeed 0) hmle
  have hcount1 : ∀ c, (selectClasses ds.d1 ds.d2 ds.lab m d (npSeed 0)).lab.countP
      (fun v => labelClass v == some c) ≤ m := by
    intro c
    refine le_trans (selectClasses_countP ds.d1 ds.d2 ds.lab m nl honv d (npSeed 0) c hinv hnd) ?_
    split <;> omega
  have hkssub : ∀ k ∈ (shuffle (d.map (fun p => p.1))
      (selectClasses ds.d1 ds.d2 ds.lab m d (npSeed 0)).g).1, k ∈ d.map (fun p => p.1) :=
    shuffle_subset _ _
  have hb2 : ∀ p ∈ ((shuffle (d.map (fun p => p.1))
        (selectClasses ds.d1 ds.d2 ds.lab m d (npSeed 0)).g).1.map
        (fun k => (k, dictGet d k))),
      ∀ j ∈ p.2, nl[j]? = some p.1 := by
    intro p hp j hj
    simp only [List.mem_map] at hp
    obtain ⟨k, hk, hpk⟩ := hp
    subst hpk
    exact hinv (k, dictGet d k) (dictGet_mem d k (hkssub k hk)) j hj
  have hm2 : ∀ p ∈ ((shuffle (d.map (fun p => p.1))
        (selectClasses ds.d1 ds.d2 ds.lab m d (npSeed 0)).g).1.map
        (fun k => (k, dictGet d k))),
      m ≤ p.2.length := by
    intro p hp
    simp only [List.mem_map] at hp
    obtain ⟨k, hk, hpk⟩ := hp
    subst hpk
    exact hmle (k, dictGet d k) (dictGet_mem d k (hkssub k hk))
  have horder2keys : (((shuffle (d.map (fun p => p.1))
        (selectClasses ds.d1 ds.d2 ds.lab m d (npSeed 0)).g).1.map
        (fun k => (k, dictGet d k))).map (fun p => p.1)) =
      (shuffle (d.map (fun p => p.1))
        (selectClasses ds.d1 ds.d2 ds.lab m d (npSeed 0)).g).1 := by
    rw [List.map_map]
    exact List.map_id _
  have hnd2 : ((((shuffle (d.map (fun p => p.1))
        (selectClasses ds.d1 ds.d2 ds.lab m d (npSeed 0)).g).1.map
        (fun k => (k, dictGet d k)))).map (fun p => p.1)).Nodup := by
    rw [horder2keys]
    exact shuffle_nodup _ _ hnd
  have horder2len : ((shuffle (d.map (fun p => p.1))
        (selectClasses ds.d1 ds.d2 ds.lab m d (npSeed 0)).g).1.map
        (fun k => (k, dictGet d k))).length = d.length := by
    rw [List.length_map, shuffle_length, List.length_map]
  obtain ⟨M1, M2, M3⟩ := selectClasses_lengths ds.d1 ds.d2 ds.lab m
    ((shuffle (d.map (fun p => p.1))
      (selectClasses ds.d1 ds.d2 ds.lab m d (npSeed 0)).g).1.map
      (fun k => (k, dictGet d k)))
    (shuffle (d.map (fun p => p.1))
      (selectClasses ds.d1 ds.d2 ds.lab m d (npSeed 0)).g).2 hm2
  have hcount2 : ∀ c, (selectClasses ds.d1 ds.d2 ds.lab m
      ((shuffle (d.map (fun p => p.1))
        (selectClasses ds.d1 ds.d2 ds.lab m d (npSeed 0)).g).1.map
        (fun k => (k, dictGet d k)))
      (shuffle (d.map (fun p => p.1))
        (selectClasses ds.d1 ds.d2 ds.lab m d (npSeed 0)).g).2).lab.countP
      (fun v => labelClass v == some c) ≤ m := by
    intro c
    refine le_trans (selectClasses_countP ds.d1 ds.d2 ds.lab m nl honv _ _ c hb2 hnd2) ?_
    split <;> omega
  have heq : two_permutation_data g ds hn = some (balanceCore ds d) := by
    simp only [two_permutation_data, hon, Option.some_bind, hbuild]
  refine ⟨(balanceCore ds d).1, (balanceCore ds d).2.1, (balanceCore ds d).2.2, heq,
    ?_, ?_, ?_, ?_, ?_, ?_, ?_, ?_, ?_, ?_⟩
  · rw [hminCount, ← hdlen]
    exact L1
  · rw [hminCount, ← hdlen, ← horder2len]
    exact M1
  · exact L2.trans L1.symm
  · exact L3.trans L1.symm
  · exact M2.trans M1.symm
  · exact M3.trans M1.symm
  · intro c
    rw [hminCount]
    exact hcount1 c
  · intro c
    rw [hminCount]
    exact hcount2 c
  · exact selectClasses_lab_mem ds.d1 ds.d2 ds.lab m nl honv d (npSeed 0) hinv
  · exact selectClasses_lab_mem ds.d1 ds.d2 ds.lab m nl honv _ _ hb2

/-- C5.  On a pool with well-formed one-hot labels (each row has a `1`
at a class index below 4), `two_permutation_data` succeeds and returns
two pools whose three arrays all have the same length
`num_participating_classes * min_count`, and each class contributes at
most `min_count` rows to each pool. -/
theorem C5_balancer_balanced (g : Nat) (ds : DS) (hn : Bool) (nl : List Nat)
    (hon : onehot_to ds.lab = some nl) (hcls : ∀ c ∈ nl, c < 4) :
    ∃ p1 p2 g2, two_permutation_data g ds hn = some (p1, p2, g2) ∧
      p1.lab.length = numClasses hn * minCount ds hn ∧
      p2.lab.length = numClasses hn * minCount ds hn ∧
      p1.d1.length = p1.lab.length ∧ p1.d2.length = p1.lab.length ∧
      p2.d1.length = p2.lab.length ∧ p2.d2.length = p2.lab.length ∧
      (∀ c, p1.lab.countP (fun v => labelClass v == some c) ≤ minCount ds hn) ∧
      (∀ c, p2.lab.countP (fun v => labelClass v == some c) ≤ minCount ds hn) := by
  obtain ⟨p1, p2, g2, heq, h1, h2, h3, h4, h5, h6, h7, h8, _, _⟩ :=
    two_permutation_spec g ds hn nl hon hcls
  exact ⟨p1, p2, g2, heq, h1, h2, h3, h4, h5, h6, h7, h8⟩

/-- C5 witness: the hypotheses of `C5_balancer_balanced` hold on a
concrete four-sample pool with classes `[1, 2, 3, 1]` (no normal
class), and the balancer succeeds with balanced output pools. -/
theorem C5_witness :
    (onehot_to dsEx.lab = some [1, 2, 3, 1] ∧ ∀ c ∈ [1, 2, 3, 1], c < 4) ∧
    (∃ p1 p2 g2, two_permutation_data 0 dsEx false = some (p1, p2, g2) ∧
      p1.lab.length = numClasses false * minCount dsEx false ∧
      p2.lab.length = numClasses false * minCount dsEx false ∧
      p1.d1.length = p1.lab.length ∧ p1.d2.length = p1.lab.length ∧
      p2.d1.length = p2.lab.length ∧ p2.d2.length = p2.lab.length ∧
      (∀ c, p1.lab.countP (fun v => labelClass v == some c) ≤ minCount dsEx false) ∧
      (∀ c, p2.lab.countP (fun v => labelClass v == some c) ≤ minCount dsEx false)) := by
  have hon : onehot_to dsEx.lab = some [1, 2, 3, 1] := by decide
  exact ⟨⟨hon, by decide⟩,
    C5_balancer_balanced 0 dsEx false [1, 2, 3, 1] hon (by decide)⟩

theorem gammaSample_length (n : Nat) (a : ℚ) (g : Nat) :
    (gammaSample n a g).1.length = n := by
  induction n generalizing g with
  | zero => rfl
  | succ k ih => simp [gammaSample, ih]

theorem gammaSample_pos (n : Nat) (a : ℚ) (g : Nat) :
    ∀ x ∈ (gammaSample n a g).1, 0 < x := by
  induction n generalizing g with
  | zero => intro x hx; cases hx
  | succ k ih =>
    intro x hx
    rw [gammaSample] at hx
    rcases List.mem_cons.mp hx with h | h
    · subst h
      have hnum : (0 : ℚ) < (((rngNext g).1 % 1000 + 1 : Nat) : ℚ) := by
        have : 0 < ((rngNext g).1 % 1000 + 1 : Nat) := by omega
        exact_mod_cast this
      exact div_pos hnum (by norm_num)
    · exact ih _ x h

theorem mem_zipWith {α β γ : Type} (f : α → β → γ) (l1 : List α) (l2 : List β) :
    ∀ x ∈ List.zipWith f l1 l2, ∃ a b, a ∈ l1 ∧ b ∈ l2 ∧ x = f a b := by
  induction l1 generalizing l2 with
  | nil => intro x hx; cases hx
  | cons a as ih =>
    intro x hx
    cases l2 with
    | nil => cases hx
    | cons b bs =>
      rw [List.zipWith_cons_cons] at hx
      rcases List.mem_cons.mp hx with h | h
      · exact ⟨a, b, List.mem_cons_self a as, List.mem_cons_self b bs, h⟩
      · obtain ⟨a2, b2, ha, hb, hx⟩ := ih bs x h
        exact ⟨a2, b2, List.mem_cons_of_mem a ha, List.mem_cons_of_mem b hb, hx⟩

theorem sample_beta_length (n : Nat) (c0 c1 : ℚ) (g : Nat) :
    (sample_beta_distribution n c0 c1 g).1.length = n := by
  simp [sample_beta_distribution, gammaSample_length]

theorem sample_beta_unit (n : Nat) (c0 c1 : ℚ) (g : Nat) :
    ∀ lam ∈ (sample_beta_distribution n c0 c1 g).1, 0 ≤ lam ∧ lam ≤ 1 := by
  intro lam hlam
  rw [sample_beta_distribution] at hlam
  obtain ⟨a, b, ha, hb, hlam⟩ := mem_zipWith _ _ _ lam hlam
  have hap : 0 < a := gammaSample_pos n c1 g a ha
  have hbp : 0 < b := gammaSample_pos n c0 _ b hb
  subst hlam
  constructor
  · exact le_of_lt (div_pos hap (by linarith))
  · rw [div_le_one (by linarith)]
    linarith

theorem mixRows_length (ls : List ℚ) (vs ws : List Vec) :
    (mixRows ls vs ws).length = min ls.length (min vs.length ws.length) := by
  induction ls generalizing vs ws with
  | nil => simp [mixRows]
  | cons lam ls2 ih =>
    cases vs with
    | nil => simp [mixRows]
    | cons v vs2 =>
      cases ws with
      | nil => simp [mixRows]
      | cons w ws2 =>
        rw [mixRows]
        simp only [List.length_cons, ih]
        omega

theorem mixRows_mem (ls : List ℚ) (vs ws : List Vec) :
    ∀ x ∈ mixRows ls vs ws, ∃ lam v w, lam ∈ ls ∧ v ∈ vs ∧ w ∈ ws ∧ x = mixVec lam v w := by
  induction ls generalizing vs ws with
  | nil => intro x hx; cases hx
  | cons lam ls2 ih =>
    intro x hx
    cases vs with
    | nil => cases hx
    | cons v vs2 =>
      cases ws with
      | nil => cases hx
      | cons w ws2 =>
        rw [mixRows] at hx
        rcases List.mem_cons.mp hx with h | h
        · exact ⟨lam, v, w, List.mem_cons_self _ _, List.mem_cons_self _ _,
            List.mem_cons_self _ _, h⟩
        · obtain ⟨lam2, v2, w2, hl, hv, hw, hx⟩ := ih vs2 ws2 x h
          exact ⟨lam2, v2, w2, List.mem_cons_of_mem _ hl, List.mem_cons_of_mem _ hv,
            List.mem_cons_of_mem _ hw, hx⟩

theorem sliceB_length (xs : List Vec) (i bs : Nat) :
    (sliceB xs i bs).length = min bs (xs.length - i * bs) := by
  simp [sliceB]

theorem sliceB_subset (xs : List Vec) (i bs : Nat) : ∀ v ∈ sliceB xs i bs, v ∈ xs :=
  fun v hv => List.drop_subset (i * bs) xs (List.take_subset bs _ hv)

theorem mixLoop_zero (i1 f1 l1 i2 f2 l2 : List Vec) (c : ℚ) (bs i : Nat)
    (acc : List Vec × List Vec × List Vec) (g : Nat) :
    mixLoop i1 f1 l1 i2 f2 l2 c bs i 0 acc g = (acc, g) := rfl

theorem mixLoop_succ (i1 f1 l1 i2 f2 l2 : List Vec) (c : ℚ) (bs i k : Nat)
    (acc : List Vec × List Vec × List Vec) (g : Nat) :
    mixLoop i1 f1 l1 i2 f2 l2 c bs i (k + 1) acc g =
      mixLoop i1 f1 l1 i2 f2 l2 c bs (i + 1) k
        (acc.1 ++ mixRows (sample_beta_distribution bs c c g).1
            (sliceB i1 i bs) (sliceB i2 i bs),
          acc.2.1 ++ mixRows (sample_beta_distribution bs c c g).1
            (sliceB f1 i bs) (sliceB f2 i bs),
          acc.2.2 ++ mixRows (sample_beta_distribution bs c c g).1
            (sliceB l1 i bs) (sliceB l2 i bs))
        (sample_beta_distribution bs c c g).2 := rfl

theorem mixLoop_spec (i1 f1 l1 i2 f2 l2 : List Vec) (c : ℚ) (bs : Nat)
    (P : Vec → Prop) (hl2 : l2.length = l1.length)
    (hP : ∀ lam v w, 0 ≤ lam → lam ≤ 1 → v ∈ l1 → w ∈ l2 → P (mixVec lam v w)) :
    ∀ (k i : Nat) (acc : List Vec × List Vec × List Vec) (g : Nat),
      (i + k) * bs ≤ l1.length →
      ∃ synth, (mixLoop i1 f1 l1 i2 f2 l2 c bs i k acc g).1.2.2 = acc.2.2 ++ synth ∧
        synth.length = k * bs ∧ ∀ v ∈ synth, P v := by
  intro k
  induction k with
  | zero =>
    intro i acc g _
    exact ⟨[], by rw [mixLoop_zero]; simp, by simp, fun v hv => absurd hv (List.not_mem_nil v)⟩
  | succ k2 ih =>
    intro i acc g hbound
    have hfull : i * bs + bs ≤ l1.length := by
      have h3 : (i + 1) * bs ≤ (i + (k2 + 1)) * bs := Nat.mul_le_mul_right bs (by omega)
      have h4 : (i + 1) * bs = i * bs + bs := by ring
      omega
    have hslice1 : (sliceB l1 i bs).length = bs := by
      rw [sliceB_length]
      omega
    have hslice2 : (sliceB l2 i bs).length = bs := by
      rw [sliceB_length, hl2]
      omega
    have hlabs : (mixRows (sample_beta_distribution bs c c g).1
        (sliceB l1 i bs) (sliceB l2 i bs)).length = bs := by
      rw [mixRows_length, sample_beta_length, hslice1, hslice2]
      omega
    have hgoodlabs : ∀ v ∈ mixRows (sample_beta_distribution bs c c g).1
        (sliceB l1 i bs) (sliceB l2 i bs), P v := by
      intro v hv
      obtain ⟨lam, v1, v2, hlam, hv1, hv2, hveq⟩ := mixRows_mem _ _ _ v hv
      obtain ⟨h0, h1⟩ := sample_beta_unit bs c c g lam hlam
      subst hveq
      exact hP lam v1 v2 h0 h1 (sliceB_subset l1 i bs v1 hv1) (sliceB_subset l2 i bs v2 hv2)
    obtain ⟨synth2, heq2, hlen2, hgood2⟩ := ih (i + 1)
      (acc.1 ++ mixRows (sample_beta_distribution bs c c g).1
          (sliceB i1 i bs) (sliceB i2 i bs),
        acc.2.1 ++ mixRows (sample_beta_distribution bs c c g).1
          (sliceB f1 i bs) (sliceB f2 i bs),
        acc.2.2 ++ mixRows (sample_beta_distribution bs c c g).1
          (sliceB l1 i bs) (sliceB l2 i bs))
      (sample_beta_distribution bs c c g).2 (by
        have : (i + 1 + k2) * bs = (i + (k2 + 1)) * bs := by ring
        omega)
    refine ⟨mixRows (sample_beta_distribution bs c c g).1
        (sliceB l1 i bs) (sliceB l2 i bs) ++ synth2, ?_, ?_, ?_⟩
    · rw [mixLoop_succ, heq2, List.append_assoc]
    · rw [List.length_append, hlabs, hlen2]
      ring
    · intro v hv
      rcases List.mem_append.mp hv with h | h
      · exact hgoodlabs v h
      · exact hgood2 v h

theorem mixRounds_spec (i1 f1 l1 i2 f2 l2 : List Vec) (alpha : List ℚ) (P : Vec → Prop)
    (hl2 : l2.length = l1.length)
    (hP : ∀ lam v w, 0 ≤ lam → lam ≤ 1 → v ∈ l1 → w ∈ l2 → P (mixVec lam v w)) :
    ∀ (rounds : List Nat) (idx : Nat) (acc : List Vec × List Vec × List Vec) (g : Nat),
      (∀ bs ∈ rounds, 0 < bs) → idx + rounds.length ≤ alpha.length →
      ∃ out g2, mixRounds i1 f1 l1 i2 f2 l2 alpha rounds idx acc g = some (out, g2) ∧
        ∃ synth, out.2.2 = acc.2.2 ++ synth ∧
          synth.length = (rounds.map (fun bs => l1.length / bs * bs)).sum ∧
          ∀ v ∈ synth, P v := by
  intro rounds
  induction rounds with
  | nil =>
    intro idx acc g _ _
    exact ⟨acc, g, rfl, [], by simp, by simp, fun v hv => absurd hv (List.not_mem_nil v)⟩
  | cons bs rest ih =>
    intro idx acc g hbs hlen
    have hidx : idx < alpha.length := by
      simp only [List.length_cons] at hlen
      omega
    have halpha : alpha[idx]? = some (alpha.get ⟨idx, hidx⟩) := by
      rw [List.getElem?_eq_getElem hidx]
      rfl
    have hbs0 : bs ≠ 0 := by
      have := hbs bs (List.mem_cons_self _ _)
      omega
    obtain ⟨synthL, heqL, hlenL, hgoodL⟩ :=
      mixLoop_spec i1 f1 l1 i2 f2 l2 (alpha.get ⟨idx, hidx⟩) bs P hl2 hP
        (l1.length / bs) 0 acc g (by simpa using Nat.div_mul_le_self l1.length bs)
    obtain ⟨out, g2, hrec, synthR, heqR, hlenR, hgoodR⟩ := ih (idx + 1)
      (mixLoop i1 f1 l1 i2 f2 l2 (alpha.get ⟨idx, hidx⟩) bs 0 (l1.length / bs) acc g).1
      (mixLoop i1 f1 l1 i2 f2 l2 (alpha.get ⟨idx, hidx⟩) bs 0 (l1.length / bs) acc g).2
      (fun b hb => hbs b (List.mem_cons_of_mem bs hb))
      (by simp only [List.length_cons] at hlen; omega)
    refine ⟨out, g2, ?_, synthL ++ synthR, ?_, ?_, ?_⟩
    · rw [mixRounds, halpha, Option.some_bind, if_neg hbs0]
      exact hrec
    · rw [heqR, heqL, List.append_assoc]
    · rw [List.length_append, hlenL, hlenR, List.map_cons, List.sum_cons]
    · intro v hv
      rcases List.mem_append.mp hv with h | h
      · exact hgoodL v h
      · exact hgoodR v h

/-- C6.  On a pool with well-formed one-hot labels, positive batch
sizes, and an `alpha` list covering every round, `mix_up` succeeds and
the label count of its output pool is exactly the input pool length
plus, summed over the rounds, `floor(balanced_pool_size / batch_size_r)
* batch_size_r`: the remainder samples of each round are silently
dropped from augmentation rather than raising. -/
theorem C6_mixup_length (gnp gtf : Nat) (ds : DS) (bi : String) (alpha : List ℚ)
    (bsr : List Nat) (hn : Bool) (nl : List Nat)
    (hon : onehot_to ds.lab = some nl) (hcls : ∀ c ∈ nl, c < 4)
    (hbs : ∀ bs ∈ bsr, 0 < bs) (halpha : bsr.length ≤ alpha.length) :
    ∃ out g2, mix_up gnp gtf ds bi alpha bsr hn = some (out, g2) ∧
      out.2.2.length = ds.lab.length +
        (bsr.map (fun bs => balancedSize ds hn / bs * bs)).sum := by
  obtain ⟨p1, p2, g2, heq, h1, h2, _, _, _, _, _, _, _, _⟩ :=
    two_permutation_spec gnp ds hn nl hon hcls
  have hl2 : p2.lab.length = p1.lab.length := h2.trans h1.symm
  obtain ⟨out, gz, hrounds, synth, hlabs, hlen, _⟩ :=
    mixRounds_spec p1.d1 p1.d2 p1.lab p2.d1 p2.d2 p2.lab alpha (fun _ => True) hl2
      (fun _ _ _ _ _ _ _ => trivial) bsr 0 (ds.d1, ds.d2, ds.lab) gtf hbs
      (by omega)
  have hbsz : balancedSize ds hn = p1.lab.length := by
    have hg : two_permutation_data 0 ds hn = some (p1, p2, g2) := heq
    simp [balancedSize, hg]
  refine ⟨out, gz, ?_, ?_⟩
  · rw [mix_up, heq, Option.some_bind]
    exact hrounds
  · rw [hlabs, List.length_append, hlen, hbsz]

/-- C6 witness: the hypotheses of `C6_mixup_length` hold for the
concrete pool `dsEx` with batch sizes `[1, 2]` and the source's
default `alpha = [0.15, 0.2]`, and the augmented pool length follows
the dropped-remainder formula. -/
theorem C6_witness :
    (onehot_to dsEx.lab = some [1, 2, 3, 1] ∧ (∀ c ∈ [1, 2, 3, 1], c < 4) ∧
      (∀ bs ∈ [1, 2], 0 < bs) ∧ [1, 2].length ≤ [(3 : ℚ) / 20, 1 / 5].length) ∧
    (∃ out g2, mix_up 0 0 dsEx "mel_stft" [(3 : ℚ) / 20, 1 / 5] [1, 2] false =
        some (out, g2) ∧
      out.2.2.length = dsEx.lab.length +
        ([1, 2].map (fun bs => balancedSize dsEx false / bs * bs)).sum) := by
  have hon : onehot_to dsEx.lab = some [1, 2, 3, 1] := by decide
  exact ⟨⟨hon, by decide, by decide, by decide⟩,
    C6_mixup_length 0 0 dsEx "mel_stft" [(3 : ℚ) / 20, 1 / 5] [1, 2] false
      [1, 2, 3, 1] hon (by decide) (by decide) (by decide)⟩

theorem mixVec_length (lam : ℚ) (v w : Vec) :
    (mixVec lam v w).length = min v.length w.length := by
  simp [mixVec]

theorem mixVec_sum (lam : ℚ) (v w : Vec) (hlen : v.length = w.length) :
    (mixVec lam v w).sum = lam * v.sum + (1 - lam) * w.sum := by
  induction v generalizing w with
  | nil =>
    cases w with
    | nil => simp [mixVec]
    | cons b bs => simp at hlen
  | cons a as ih =>
    cases w with
    | nil => simp at hlen
    | cons b bs =>
      simp only [List.length_cons, Nat.add_right_cancel_iff] at hlen
      rw [mixVec, List.zipWith_cons_cons, List.sum_cons, List.sum_cons, List.sum_cons]
      have := ih bs hlen
      rw [mixVec] at this
      rw [this]
      ring

theorem mixVec_unit (lam : ℚ) (v w : Vec) (h0 : 0 ≤ lam) (h1 : lam ≤ 1)
    (hv : ∀ x ∈ v, 0 ≤ x ∧ x ≤ 1) (hw : ∀ x ∈ w, 0 ≤ x ∧ x ≤ 1) :
    ∀ x ∈ mixVec lam v w, 0 ≤ x ∧ x ≤ 1 := by
  intro x hx
  obtain ⟨a, b, ha, hb, hx⟩ := mem_zipWith _ _ _ x hx
  obtain ⟨ha0, ha1⟩ := hv a ha
  obtain ⟨hb0, hb1⟩ := hw b hb
  subst hx
  constructor
  · have e1 : 0 ≤ lam * a := mul_nonneg h0 ha0
    have e2 : 0 ≤ (1 - lam) * b := mul_nonneg (by linarith) hb0
    linarith
  · have e1 : lam * a ≤ lam := by nlinarith
    have e2 : (1 - lam) * b ≤ 1 - lam := by nlinarith
    linarith

/-- C7.  On a pool whose label rows are one-hot vectors of length 4
(entries in `[0,1]` summing to `1`), with positive batch sizes and a
covering `alpha` list, every label synthesized by `mix_up` — every row
of the output label array beyond the original pool — is a vector in
`[0,1]^4` whose entries sum to exactly `1` (the `±1e-6` float slack of
the spec is exact in rational arithmetic). -/
theorem C7_mixup_label_simplex (gnp gtf : Nat) (ds : DS) (bi : String) (alpha : List ℚ)
    (bsr : List Nat) (hn : Bool) (nl : List Nat)
    (hon : onehot_to ds.lab = some nl) (hcls : ∀ c ∈ nl, c < 4)
    (hbs : ∀ bs ∈ bsr, 0 < bs) (halpha : bsr.length ≤ alpha.length)
    (hgood : ∀ v ∈ ds.lab, v.length = 4 ∧ (∀ x ∈ v, 0 ≤ x ∧ x ≤ 1) ∧ v.sum = 1) :
    ∃ out g2, mix_up gnp gtf ds bi alpha bsr hn = some (out, g2) ∧
      ∀ v ∈ out.2.2.drop ds.lab.length,
        v.length = 4 ∧ (∀ x ∈ v, 0 ≤ x ∧ x ≤ 1) ∧ v.sum = 1 := by
  obtain ⟨p1, p2, g2, heq, h1, h2, _, _, _, _, _, _, hmem1, hmem2⟩ :=
    two_permutation_spec gnp ds hn nl hon hcls
  have hl2 : p2.lab.length = p1.lab.length := h2.trans h1.symm
  have hP : ∀ (lam : ℚ) (v w : Vec), 0 ≤ lam → lam ≤ 1 → v ∈ p1.lab → w ∈ p2.lab →
      (mixVec lam v w).length = 4 ∧ (∀ x ∈ mixVec lam v w, 0 ≤ x ∧ x ≤ 1) ∧
        (mixVec lam v w).sum = 1 := by
    intro lam v w hl0 hl1 hv hw
    obtain ⟨hvl, hvu, hvs⟩ := hgood v (hmem1 v hv)
    obtain ⟨hwl, hwu, hws⟩ := hgood w (hmem2 w hw)
    refine ⟨by rw [mixVec_length, hvl, hwl]; omega, mixVec_unit lam v w hl0 hl1 hvu hwu, ?_⟩
    rw [mixVec_sum lam v w (by rw [hvl, hwl]), hvs, hws]
    ring
  obtain ⟨out, gz, hrounds, synth, hlabs, _, hgoodS⟩ :=
    mixRounds_spec p1.d1 p1.d2 p1.lab p2.d1 p2.d2 p2.lab alpha
      (fun u => u.length = 4 ∧ (∀ x ∈ u, 0 ≤ x ∧ x ≤ 1) ∧ u.sum = 1) hl2 hP
      bsr 0 (ds.d1, ds.d2, ds.lab) gtf hbs (by omega)
  refine ⟨out, gz, ?_, ?_⟩
  · rw [mix_up, heq, Option.some_bind]
    exact hrounds
  · intro v hv
    have hdrop : out.2.2.drop ds.lab.length = synth := by
      rw [hlabs]
      exact List.drop_left ds.lab synth
    rw [hdrop] at hv
    exact hgoodS v hv

/-- C7 witness: the hypotheses of `C7_mixup_label_simplex` hold on the
concrete one-hot pool `dsEx` with one round of batch size 1, and every
synthesized label lies on the probability simplex. -/
theorem C7_witness :
    (onehot_to dsEx.lab = some [1, 2, 3, 1] ∧ (∀ c ∈ [1, 2, 3, 1], c < 4) ∧
      (∀ bs ∈ [1], 0 < bs) ∧ [1].length ≤ [(3 : ℚ) / 20].length ∧
      (∀ v ∈ dsEx.lab, v.length = 4 ∧ (∀ x ∈ v, 0 ≤ x ∧ x ≤ 1) ∧ v.sum = 1)) ∧
    (∃ out g2, mix_up 0 0 dsEx "mel_stft" [(3 : ℚ) / 20] [1] false = some (out, g2) ∧
      ∀ v ∈ out.2.2.drop dsEx.lab.length,
        v.length = 4 ∧ (∀ x ∈ v, 0 ≤ x ∧ x ≤ 1) ∧ v.sum = 1) := by
  have hon : onehot_to dsEx.lab = some [1, 2, 3, 1] := by decide
  have hgood : ∀ v ∈ dsEx.lab, v.length = 4 ∧ (∀ x ∈ v, 0 ≤ x ∧ x ≤ 1) ∧ v.sum = 1 := by
    intro v hv
    fin_cases hv <;> exact ⟨rfl, by decide, by norm_num⟩
  exact ⟨⟨hon, by decide, by decide, by decide, hgood⟩,
    C7_mixup_label_simplex 0 0 dsEx "mel_stft" [(3 : ℚ) / 20] [1] false
      [1, 2, 3, 1] hon (by decide) (by decide) (by decide) hgood⟩

end ICBHI
